import Mathlib

/-!
Shallow embedding of the dibber image build orchestrator
(src/dibber/images.py and src/dibber/main.py), together with proofs about
its priority resolution, tier scheduling, context propagation, digest
extraction, manifest merging and manifest-information persistence.
-/

/-! ## Python string primitives, modelled over `List Char` -/

/-- Python string comparison: lexicographic by code point (`a <= b`). -/
def lexLe : List Char → List Char → Bool
  | [], _ => true
  | _ :: _, [] => false
  | a :: as, b :: bs => if a = b then lexLe as bs else decide (a < b)

/-- The `<=` order on `String` used by Python's `list.sort`. -/
def strLe (a b : String) : Prop := lexLe a.data b.data = true

instance : DecidableRel strLe := fun a b => by unfold strLe; infer_instance

theorem lexLe_total (x : List Char) : ∀ y, lexLe x y = true ∨ lexLe y x = true := by
  induction x with
  | nil => intro y; left; rfl
  | cons a as ih =>
    intro y
    cases y with
    | nil => right; rfl
    | cons b bs =>
      by_cases hab : a = b
      · subst hab
        rcases ih bs with h | h
        · left; simpa [lexLe] using h
        · right; simpa [lexLe] using h
      · rcases lt_trichotomy a b with h | h | h
        · left; simp [lexLe, hab, h]
        · exact absurd h hab
        · right; simp [lexLe, Ne.symm hab, h]

theorem lexLe_trans (x : List Char) :
    ∀ y z, lexLe x y = true → lexLe y z = true → lexLe x z = true := by
  induction x with
  | nil => intro y z _ _; rfl
  | cons a as ih =>
    intro y z h1 h2
    cases y with
    | nil => simp [lexLe] at h1
    | cons b bs =>
      cases z with
      | nil => simp [lexLe] at h2
      | cons c cs =>
        by_cases hab : a = b <;> by_cases hbc : b = c
        · subst hab; subst hbc
          simp only [lexLe, if_pos rfl] at h1 h2 ⊢
          exact ih bs cs h1 h2
        · subst hab
          simp only [lexLe, if_pos rfl, if_neg hbc] at h2 ⊢
          exact h2
        · subst hbc
          simp only [lexLe, if_neg hab] at h1
          simp only [lexLe, if_neg hab]
          exact h1
        · simp only [lexLe, if_neg hab] at h1
          simp only [lexLe, if_neg hbc] at h2
          have hac : a < c := lt_trans (of_decide_eq_true h1) (of_decide_eq_true h2)
          have : a ≠ c := ne_of_lt hac
          simp [lexLe, this, hac]

instance : IsTotal String strLe := ⟨fun a b => lexLe_total a.data b.data⟩

instance : IsTrans String strLe := ⟨fun a b c => lexLe_trans a.data b.data c.data⟩

/-- Whitespace stripped by Python `str.strip` (ASCII range). -/
def pySpace (c : Char) : Bool :=
  c = ' ' || c = '\t' || c = '\n' || c = '\x0b' || c = '\x0c' || c = '\r'

/-- Python `str.strip`, over character lists. -/
def pyStripL (l : List Char) : List Char :=
  ((l.dropWhile pySpace).reverse.dropWhile pySpace).reverse

/-- Line-boundary characters recognized by Python `str.splitlines`
(besides the combined CRLF sequence). -/
def lineBreak (c : Char) : Bool :=
  c = '\n' || c = '\r' || c = '\x0b' || c = '\x0c' ||
  c = '\x1c' || c = '\x1d' || c = '\x1e' || c = '\x85' || c = '\u2028' || c = '\u2029'

/-- Collapse CRLF pairs into a single LF, as Python `str.splitlines` treats
"\r\n" as one boundary. -/
def normCRLF : List Char → List Char
  | [] => []
  | [c] => [c]
  | c :: d :: rest =>
    if c = '\r' ∧ d = '\n' then '\n' :: normCRLF rest
    else c :: normCRLF (d :: rest)

/-- Split at every character satisfying `p`, keeping empty pieces. -/
def splitOnB (p : Char → Bool) : List Char → List (List Char)
  | [] => [[]]
  | c :: rest =>
    if p c then [] :: splitOnB p rest
    else
      match splitOnB p rest with
      | [] => [[c]]
      | l :: ls => (c :: l) :: ls

/-- Python `str.splitlines`: split at line boundaries, and if the string ends
with a boundary the final empty piece is dropped. -/
def pySplitlinesL (l : List Char) : List (List Char) :=
  let parts := splitOnB lineBreak (normCRLF l)
  match parts.getLast? with
  | some [] => parts.dropLast
  | _ => parts

/-- Python `str.split(" ")`: split at every single space, keeping empty pieces. -/
def pySplitSpaceL (l : List Char) : List (List Char) :=
  splitOnB (fun c => c = ' ') l

/-- Boolean prefix test on character lists. -/
def hasPrefixL : List Char → List Char → Bool
  | [], _ => true
  | _ :: _, [] => false
  | p :: ps, c :: cs => p = c && hasPrefixL ps cs

/-- Boolean substring test on character lists. -/
def hasInfixL (pat : List Char) : List Char → Bool
  | [] => hasPrefixL pat []
  | c :: cs => hasPrefixL pat (c :: cs) || hasInfixL pat cs

/-! ## Digest extraction (images.py, build_image lines 221-234) -/

def shaPrefix : List Char := "sha256:".data

/-- Marker test of images.py line 224: the line contains
" exporting manifest " or " writing image ". -/
def markerLine (line : List Char) : Bool :=
  hasInfixL " exporting manifest ".data line || hasInfixL " writing image ".data line

/-- Inner word scan of images.py lines 225-228: the first word starting with
"sha256:" is kept, stripped; the scan stops there. -/
def scanWords : List (List Char) → List Char → List Char
  | [], sha => sha
  | w :: ws, sha => if hasPrefixL shaPrefix w then pyStripL w else scanWords ws sha

/-- Outer line scan of images.py lines 222-230: on a marker line run the word
scan; as soon as the accumulator is nonempty, stop. -/
def scanLines : List (List Char) → List Char → List Char
  | [], sha => sha
  | line :: rest, sha =>
    let sha2 := if markerLine line then scanWords (pySplitSpaceL line) sha else sha
    if sha2 = [] then scanLines rest sha2 else sha2

/-- Digest extraction of images.py lines 221-230, over the captured output. -/
def extractSha256 (output : String) : String :=
  String.mk (scanLines (pySplitlinesL output.data) [])

/-- Claim-side extraction, following the specification text literally: scan
lines in order for the first line containing an image-export marker that has a
space-separated token starting with "sha256:", and return that token raw. -/
def specScanRaw (output : String) : Option String :=
  ((pySplitlinesL output.data).findSome? fun line =>
    if markerLine line then (pySplitSpaceL line).find? fun w => hasPrefixL shaPrefix w
    else none).map fun w => String.mk w

/-- Claim-side extraction amended: the found token is additionally stripped of
surrounding whitespace (Python `str.strip`), and no match yields "". -/
def specScanTrim (output : String) : String :=
  match (pySplitlinesL output.data).findSome? fun line =>
      if markerLine line then (pySplitSpaceL line).find? fun w => hasPrefixL shaPrefix w
      else none with
  | some w => String.mk (pyStripL w)
  | none => ""

theorem pyStripL_ne_nil_of_shaPrefix {w : List Char} (h : hasPrefixL shaPrefix w = true) :
    pyStripL w ≠ [] := by
  match w with
  | [] => simp [hasPrefixL, shaPrefix] at h
  | c :: cs =>
    have hc : c = 's' := by
      simp only [shaPrefix] at h
      simp only [show ("sha256:".data) = ['s','h','a','2','5','6',':'] from rfl,
        hasPrefixL, Bool.and_eq_true, decide_eq_true_eq] at h
      exact h.1.symm
    subst hc
    intro hcon
    unfold pyStripL at hcon
    have h2 : (('s' :: cs).dropWhile pySpace).reverse.dropWhile pySpace = [] := by
      simpa using hcon
    have h3 : ('s' :: cs).dropWhile pySpace = 's' :: cs := by
      simp [List.dropWhile, pySpace]
    rw [h3] at h2
    rw [List.dropWhile_eq_nil_iff] at h2
    have : pySpace 's' = true := h2 's' (by simp)
    simp [pySpace] at this

theorem scanWords_nil_eq (ws : List (List Char)) :
    scanWords ws [] =
      match ws.find? (fun w => hasPrefixL shaPrefix w) with
      | some w => pyStripL w
      | none => [] := by
  induction ws with
  | nil => rfl
  | cons w ws ih =>
    by_cases h : hasPrefixL shaPrefix w = true
    · simp [scanWords, h, List.find?_cons_of_pos]
    · rw [List.find?_cons_of_neg _ (by simpa using h)]
      simpa [scanWords, h] using ih

theorem scanLines_nil_eq (lines : List (List Char)) :
    scanLines lines [] =
      match lines.findSome? (fun line =>
          if markerLine line then (pySplitSpaceL line).find? fun w => hasPrefixL shaPrefix w
          else none) with
      | some w => pyStripL w
      | none => [] := by
  induction lines with
  | nil => rfl
  | cons line rest ih =>
    rw [List.findSome?_cons]
    by_cases hm : markerLine line = true
    · rw [scanLines]
      simp only [hm, if_true]
      rw [scanWords_nil_eq]
      cases hf : (pySplitSpaceL line).find? (fun w => hasPrefixL shaPrefix w) with
      | none => simpa using ih
      | some w =>
        have hw : hasPrefixL shaPrefix w = true := List.find?_some hf
        have := pyStripL_ne_nil_of_shaPrefix hw
        simp [this]
    · rw [scanLines]
      simp only [hm]
      simpa [hm] using ih

/-- C5 (amended): for every captured build output, digest extraction scans
lines in order for the first line containing an image-export marker
(" exporting manifest " or " writing image ") that has a space-separated token
starting with "sha256:", and returns that line's first such token stripped of
surrounding whitespace (the empty string when no line matches); in particular
the line "#12 writing image sha256:abcd... done" yields "sha256:abcd...". -/
theorem C5_extraction_first_marker_token :
    (∀ output : String, extractSha256 output = specScanTrim output) ∧
    extractSha256 "#12 writing image sha256:abcd... done" = "sha256:abcd..." := by
  constructor
  · intro output
    unfold extractSha256 specScanTrim
    rw [scanLines_nil_eq]
    cases (pySplitlinesL output.data).findSome? fun line =>
        if markerLine line then (pySplitSpaceL line).find? fun w => hasPrefixL shaPrefix w
        else none with
    | none => rfl
    | some w => rfl
  · decide

/-- C5 counterexample: on a marker line whose first "sha256:" token carries a
trailing tab, `build_image`'s extraction returns the token stripped of the tab,
not the raw space-separated token named by the claim. -/
theorem C5_counterexample :
    extractSha256 "a writing image sha256:y\t z" = "sha256:y" ∧
    specScanRaw "a writing image sha256:y\t z" = some "sha256:y\t" ∧
    ("sha256:y" : String) ≠ "sha256:y\t" :=
  ⟨by decide, by decide, by decide⟩

/-! ## build_image (images.py lines 116-262) -/

/-- Per-version configuration record (images.py lines 22-23). -/
structure Config where
  tags : List String
deriving DecidableEq

/-- Modelled from the spec: dibber.utils.run is not under src/; per the spec it
invokes an external command, returns its captured textual output, and a
non-zero exit of the external tool raises (is fatal). An `Env` fixes each
command invocation's outcome for one run, plus the configured Docker user
(dibber.settings.conf.docker_user, also not under src/). -/
structure Env where
  runCmd : List String → Except String String
  dockerUser : String

/-- Failure modes of the embedded build_image. -/
inductive BErr where
  | badToken (context : String)
  | runFail (cmd : List String) (msg : String)
  | noSha (logged : String) (message : String)
deriving DecidableEq

/-- images.py docker_image (lines 265-266). -/
def docker_image (user image : String) : String := user ++ "/" ++ image

/-- images.py docker_tag (lines 269-272). -/
def docker_tag (user image tag : String) (local_ : Bool) : String :=
  if !local_ then docker_image user image ++ ":" ++ tag else image ++ ":" ++ tag

/-- os.path.basename: the suffix after the last slash. -/
def basename (s : String) : String :=
  String.mk ((s.data.reverse.takeWhile (fun c => c ≠ '/')).reverse)

/-- Python s.split(sep, maxsplit=1), defined only when sep occurs (every
caller unpacks exactly two results, so a missing separator raises). -/
def splitOnceL (sep : Char) : List Char → Option (List Char × List Char)
  | [] => none
  | c :: cs =>
    if c = sep then some ([], cs)
    else (splitOnceL sep cs).map fun p => (c :: p.1, p.2)

/-- Python " ".join. -/
def joinSpace : List String → String
  | [] => ""
  | [a] => a
  | a :: b :: rest => a ++ " " ++ joinSpace (b :: rest)

/-- images.py get_build_contexts (lines 134-145). -/
def get_build_contexts (contexts : List String) : Except BErr (List String) :=
  contexts.foldlM
    (fun acc context =>
      match splitOnceL ' ' context.data with
      | none => .error (.badToken context)
      | some (img, sha) =>
        .ok (acc ++ ["--build-context",
          basename (String.mk img) ++ "=docker-image://" ++ String.mk img ++ "@" ++
            String.mk sha]))
    []

/-- images.py add_image_tag (lines 116-121): the docker command it runs. -/
def add_image_tag_cmd (image uniq_id tag target_image : String) : List String :=
  ["docker", "tag", image ++ ":" ++ uniq_id, target_image ++ ":" ++ tag]

/-- images.py remove_image_tag (lines 124-126): the docker command it runs. -/
def remove_image_tag_cmd (image tag : String) : List String :=
  ["docker", "rmi", image ++ ":" ++ tag]

/-- images.py push_image (lines 129-131): the docker command it runs. -/
def push_image_cmd (image tag : String) : List String :=
  ["docker", "push", image ++ ":" ++ tag]

/-- Execute one external invocation; a failing invocation raises. -/
def runE (env : Env) (cmd : List String) : Except BErr String :=
  match env.runCmd cmd with
  | .ok out => .ok out
  | .error e => .error (.runFail cmd e)

/-- Output-capture phase of images.py build_image (lines 189-219): the one or
two build invocations, echoing each full command line into the captured
output; os.linesep is "\n" (Linux). -/
def buildOutput (env : Env) (uniq_id : String) (image version : String)
    (build_contexts : List String) (local_only : Bool) : Except BErr String := do
  let name := image ++ "/" ++ version
  let repo := docker_image env.dockerUser image
  let tag := docker_tag env.dockerUser image version false
  let cmd :=
    if local_only then ["docker", "build", name] ++ ["-t", tag]
    else
      ["docker", "buildx", "build", name] ++ ["-t", image ++ ":" ++ uniq_id] ++
        build_contexts ++ ["--output", "type=docker"] ++ ["--progress=plain"]
  let out1 ← runE env cmd
  let output := joinSpace cmd ++ "\n" ++ out1 ++ "\n" ++ "\n"
  if local_only then pure output
  else do
    let cmd2 := ["docker", "buildx", "build", name] ++ ["-t", repo] ++ build_contexts ++
      ["--progress=plain"] ++ ["--output", "push-by-digest=true,type=image,push=true"]
    let out2 ← runE env cmd2
    pure (output ++ joinSpace cmd2 ++ "\n" ++ out2)

/-- Tail phase of images.py build_image (lines 221-262), downstream of output
capture: digest extraction, tag-map assembly, tagging, pushing and unique-id
tag removal. -/
def finishBuild (env : Env) (uniq_id : String) (config : Config)
    (image version : String) (local_only : Bool) (output : String) :
    Except BErr (List String × String) :=
  let repo := docker_image env.dockerUser image
  let tag := docker_tag env.dockerUser image version false
  let sha256 := extractSha256 output
  if sha256 = "" then
    .error (.noSha output "Couldn\x27t find sha256 tag in output")
  else
    let tag_map := [tag ++ " " ++ sha256]
    if local_only then
      .ok (tag_map, repo ++ ":" ++ uniq_id)
    else do
      let tag_map := [tag ++ " " ++ sha256]
      let _ ← runE env (add_image_tag_cmd image uniq_id version image)
      let tag_map ← config.tags.foldlM
        (fun tm extra_tag => do
          let full_name := docker_tag env.dockerUser image extra_tag false
          let tm := tm ++ [full_name ++ " " ++ sha256]
          let _ ← runE env (add_image_tag_cmd image uniq_id extra_tag image)
          pure tm)
        tag_map
      let _ ← runE env (add_image_tag_cmd image uniq_id uniq_id repo)
      let _ ← runE env (push_image_cmd repo uniq_id)
      let _ ← runE env (remove_image_tag_cmd image uniq_id)
      let _ ← runE env (remove_image_tag_cmd repo uniq_id)
      .ok (tag_map, repo ++ ":" ++ uniq_id)

/-- images.py build_image (lines 173-262), with the external world abstracted
into `env`, the generated unique id (utils.make_id) and the loaded per-version
config (get_config) passed as inputs. Returns the tag map and the
"repo:uniq_id" record. -/
def build_image (env : Env) (uniq_id : String) (config : Config)
    (image version : String) (contexts : List String) (local_only : Bool) :
    Except BErr (List String × String) := do
  let build_contexts ← get_build_contexts contexts
  let output ← buildOutput env uniq_id image version build_contexts local_only
  finishBuild env uniq_id config image version local_only output

theorem exceptBind_ok {ε α β : Type} (a : α) (f : α → Except ε β) :
    (Except.ok a : Except ε α) >>= f = f a := rfl

theorem exceptBind_error {ε α β : Type} (e : ε) (f : α → Except ε β) :
    (Except.error e : Except ε α) >>= f = Except.error e := rfl

/-- C6 (amended): whenever digest extraction over the captured output comes up
empty, build_image raises a fatal error; the entire captured output is carried
in the error's logged payload (images.py line 233, logger.error(output)),
while the raised exception's message is the fixed string
"Couldn't find sha256 tag in output" (images.py line 234), which does not
itself embed the output. -/
theorem C6_no_digest_fatal (env : Env) (uniq_id : String) (config : Config)
    (image version : String) (contexts bcs : List String) (output : String)
    (local_only : Bool)
    (hbc : get_build_contexts contexts = .ok bcs)
    (hout : buildOutput env uniq_id image version bcs local_only = .ok output)
    (hsha : extractSha256 output = "") :
    build_image env uniq_id config image version contexts local_only =
      .error (.noSha output "Couldn\x27t find sha256 tag in output") := by
  unfold build_image
  rw [hbc, exceptBind_ok, hout, exceptBind_ok]
  simp [finishBuild, hsha]

/-- Environment whose build output never carries a digest marker. -/
def envNoSha : Env := ⟨fun _ => .ok "nothing interesting", "user"⟩

theorem C6_no_digest_fatal_witness :
    get_build_contexts [] = .ok [] ∧
    buildOutput envNoSha "u" "app" "1" [] true =
      .ok "docker build app/1 -t user/app:1\nnothing interesting\n\n" ∧
    extractSha256 "docker build app/1 -t user/app:1\nnothing interesting\n\n" = "" ∧
    build_image envNoSha "u" ⟨[]⟩ "app" "1" [] true =
      .error (.noSha "docker build app/1 -t user/app:1\nnothing interesting\n\n"
        "Couldn\x27t find sha256 tag in output") :=
  ⟨rfl, rfl, by decide,
    C6_no_digest_fatal envNoSha "u" ⟨[]⟩ "app" "1" [] []
      "docker build app/1 -t user/app:1\nnothing interesting\n\n" true rfl rfl (by decide)⟩

/-- C6 counterexample: a concrete digest-extraction failure where the raised
error's message is the fixed exception string and does not contain the
captured output; the output is only carried in the logged payload. -/
theorem C6_counterexample :
    build_image envNoSha "u" ⟨[]⟩ "app" "1" [] true =
      .error (.noSha "docker build app/1 -t user/app:1\nnothing interesting\n\n"
        "Couldn\x27t find sha256 tag in output") ∧
    hasInfixL "docker build app/1 -t user/app:1\nnothing interesting\n\n".data
      "Couldn\x27t find sha256 tag in output".data = false :=
  ⟨by rfl, by decide⟩

theorem foldTags_ok (env : Env) (uniq_id image sha256 : String) (tags : List String) :
    ∀ tm : List String,
      (∀ t ∈ tags, (env.runCmd (add_image_tag_cmd image uniq_id t image)).isOk = true) →
      ∃ tm2, tags.foldlM
        (fun tm extra_tag => do
          let full_name := docker_tag env.dockerUser image extra_tag false
          let tm := tm ++ [full_name ++ " " ++ sha256]
          let _ ← runE env (add_image_tag_cmd image uniq_id extra_tag image)
          pure tm)
        tm = (.ok tm2 : Except BErr (List String)) := by
  induction tags with
  | nil => intro tm _; exact ⟨tm, rfl⟩
  | cons t ts ih =>
    intro tm h
    rw [List.foldlM_cons]
    have ht := h t (by simp)
    cases henv : env.runCmd (add_image_tag_cmd image uniq_id t image) with
    | error e => rw [henv] at ht; simp [Except.isOk, Except.toBool] at ht
    | ok o =>
      have : (do
          let full_name := docker_tag env.dockerUser image t false
          let tm := tm ++ [full_name ++ " " ++ sha256]
          let _ ← runE env (add_image_tag_cmd image uniq_id t image)
          pure tm) = (.ok (tm ++ [docker_tag env.dockerUser image t false ++ " " ++ sha256]) :
            Except BErr (List String)) := by
        simp [runE, henv]
      rw [this, exceptBind_ok]
      exact ih _ (fun x hx => h x (by simp [hx]))

/-- C8 (amended): in full (push-capable) mode, removal of the now-redundant
unique-id tag is not best-effort: remove_image_tag calls utils.run with no
exception handling (images.py lines 124-126, 251-253), so a failing local
removal raises and aborts the whole build assignment even after the build,
tagging and push all succeeded. -/
theorem C8_removal_failure_aborts (env : Env) (uniq_id : String) (config : Config)
    (image version : String) (contexts bcs : List String) (output : String) (e : String)
    (hbc : get_build_contexts contexts = .ok bcs)
    (hout : buildOutput env uniq_id image version bcs false = .ok output)
    (hsha : extractSha256 output ≠ "")
    (htagv : (env.runCmd (add_image_tag_cmd image uniq_id version image)).isOk = true)
    (htags : ∀ t ∈ config.tags,
      (env.runCmd (add_image_tag_cmd image uniq_id t image)).isOk = true)
    (htagu : (env.runCmd (add_image_tag_cmd image uniq_id uniq_id
      (docker_image env.dockerUser image))).isOk = true)
    (hpush : (env.runCmd (push_image_cmd (docker_image env.dockerUser image)
      uniq_id)).isOk = true)
    (hrm : env.runCmd (remove_image_tag_cmd image uniq_id) = .error e) :
    build_image env uniq_id config image version contexts false =
      .error (.runFail (remove_image_tag_cmd image uniq_id) e) := by
  unfold build_image
  rw [hbc, exceptBind_ok, hout, exceptBind_ok]
  unfold finishBuild
  simp only [if_neg hsha, Bool.false_eq_true, if_false]
  cases hv : env.runCmd (add_image_tag_cmd image uniq_id version image) with
  | error e2 => rw [hv] at htagv; simp [Except.isOk, Except.toBool] at htagv
  | ok ov =>
    rw [show runE env (add_image_tag_cmd image uniq_id version image) = .ok ov by
      simp [runE, hv], exceptBind_ok]
    obtain ⟨tm2, htm⟩ := foldTags_ok env uniq_id image (extractSha256 output) config.tags
      [docker_tag env.dockerUser image version false ++ " " ++ extractSha256 output] htags
    rw [htm, exceptBind_ok]
    cases hu : env.runCmd (add_image_tag_cmd image uniq_id uniq_id
        (docker_image env.dockerUser image)) with
    | error e2 => rw [hu] at htagu; simp [Except.isOk, Except.toBool] at htagu
    | ok ou =>
      rw [show runE env (add_image_tag_cmd image uniq_id uniq_id
          (docker_image env.dockerUser image)) = .ok ou by simp [runE, hu], exceptBind_ok]
      cases hp : env.runCmd (push_image_cmd (docker_image env.dockerUser image) uniq_id) with
      | error e2 => rw [hp] at hpush; simp [Except.isOk, Except.toBool] at hpush
      | ok op =>
        rw [show runE env (push_image_cmd (docker_image env.dockerUser image) uniq_id)
          = .ok op by simp [runE, hp], exceptBind_ok]
        rw [show runE env (remove_image_tag_cmd image uniq_id)
          = .error (.runFail (remove_image_tag_cmd image uniq_id) e) by simp [runE, hrm]]
        rfl

/-- Environment in which every command succeeds (emitting digest-bearing
build output) except the local unique-id tag removal, which fails. -/
def envRmFail : Env :=
  ⟨fun cmd =>
    if cmd = ["docker", "rmi", "app:u"] then .error "boom"
    else .ok "x writing image sha256:z done", "user"⟩

theorem C8_removal_failure_aborts_witness :
    get_build_contexts [] = .ok [] ∧
    (extractSha256 "docker buildx build app/1 -t app:u --output type=docker --progress=plain\nx writing image sha256:z done\n\ndocker buildx build app/1 -t user/app --progress=plain --output push-by-digest=true,type=image,push=true\nx writing image sha256:z done" ≠ "") ∧
    envRmFail.runCmd (remove_image_tag_cmd "app" "u") = .error "boom" ∧
    build_image envRmFail "u" ⟨["latest"]⟩ "app" "1" [] false =
      .error (.runFail (remove_image_tag_cmd "app" "u") "boom") :=
  ⟨rfl, by decide, rfl,
    C8_removal_failure_aborts envRmFail "u" ⟨["latest"]⟩ "app" "1" [] []
      "docker buildx build app/1 -t app:u --output type=docker --progress=plain\nx writing image sha256:z done\n\ndocker buildx build app/1 -t user/app --progress=plain --output push-by-digest=true,type=image,push=true\nx writing image sha256:z done"
      "boom" rfl rfl (by decide) (by decide) (by decide) (by decide) (by decide) rfl⟩

set_option maxRecDepth 8000 in
/-- C8 counterexample: a full-mode build in which build, tagging and push all
succeed, the local unique-id tag removal fails, and the whole build assignment
aborts with that removal's failure — the removal is not best-effort. -/
theorem C8_counterexample :
    envRmFail.runCmd ["docker", "rmi", "app:u"] = .error "boom" ∧
    build_image envRmFail "u" ⟨["latest"]⟩ "app" "1" [] false =
      .error (.runFail ["docker", "rmi", "app:u"] "boom") :=
  ⟨rfl, by rfl⟩

/-! ## Priority resolution (images.py sort_images, lines 44-113) -/

/-- images.py ImageConf (lines 44-53): a tier number and a split identifier. -/
structure ImageConf where
  priority : Nat
  image : List String
deriving DecidableEq

/-- One entry of conf.priority_builds (dibber.settings, shape per images.py
lines 62-79): a single "image/version" identifier or a group of them. -/
inductive PriorityEntry where
  | single (s : String)
  | group (l : List String)
deriving DecidableEq

/-- The identifiers an entry references, in order. -/
def entryIds : PriorityEntry → List String
  | .single s => [s]
  | .group l => l

/-- All configured identifiers, in configuration order. -/
def flatIds (pbs : List PriorityEntry) : List String :=
  (pbs.map entryIds).flatten

/-- Identifiers "image/version" flattened from the discovered mapping, in
insertion order (images.py lines 57-60). -/
def discoveredIds (images_ : List (String × List String)) : List String :=
  (images_.map (fun p => p.2.map (fun version => p.1 ++ "/" ++ version))).flatten

/-- Python list.remove: drop the first occurrence, error when absent
(images.py lines 65, 74). -/
def removeFirst : List String → String → Option (List String)
  | [], _ => none
  | y :: ys, x => if y = x then some ys else (removeFirst ys x).map (y :: ·)

/-- Removal pass of sort_images (images.py lines 62-79). -/
def removePass (pbs : List PriorityEntry) (images : List String) : Option (List String) :=
  pbs.foldlM (fun imgs entry => (entryIds entry).foldlM removeFirst imgs) images

/-- Python s.split("/", maxsplit=1) (images.py lines 88, 100, 110). -/
def splitSlashOnce (s : String) : List String :=
  match splitOnceL '/' s.data with
  | some (a, b) => [String.mk a, String.mk b]
  | none => [s]

/-- Assignment pass of sort_images (images.py lines 81-107): entry k (0-based)
gets priority prio + k, grouped identifiers sharing the entry's tier. -/
def assignPrios : List PriorityEntry → Nat → List ImageConf
  | [], _ => []
  | e :: rest, prio =>
    (entryIds e).map (fun s => ⟨prio, splitSlashOnce s⟩) ++ assignPrios rest (prio + 1)

/-- images.py sort_images (lines 56-113): flatten the discovered mapping,
sort lexicographically, remove every configured identifier (fatal when one is
absent), then assign tiers 1.. to configuration entries in order and the next
tier to the sorted remainder. -/
def sort_images (images_ : List (String × List String)) (pbs : List PriorityEntry) :
    Option (List ImageConf) :=
  match removePass pbs (List.insertionSort strLe (discoveredIds images_)) with
  | none => none
  | some rest =>
    some (assignPrios pbs 1 ++ rest.map (fun img => ⟨pbs.length + 1, splitSlashOnce img⟩))

/-- main.py _build_all_images (lines 69-121) up to priority resolution: the
whole build phase downstream of sort_images is an arbitrary continuation,
reached only when resolution succeeds. -/
def buildAllImages {α : Type} (run_ : List ImageConf → α)
    (images_ : List (String × List String)) (pbs : List PriorityEntry) : Option α :=
  (sort_images images_ pbs).map run_

/-- Rejoin a split identifier with "/" (left inverse of splitSlashOnce). -/
def joinSlash : List String → String
  | [] => ""
  | [a] => a
  | a :: b :: rest => a ++ "/" ++ joinSlash (b :: rest)

/-- The identifier an ImageConf stands for. -/
def idOf (ic : ImageConf) : String := joinSlash ic.image

theorem splitOnceL_spec (sep : Char) :
    ∀ (l a b : List Char), splitOnceL sep l = some (a, b) → l = a ++ sep :: b := by
  intro l
  induction l with
  | nil => intro a b h; simp [splitOnceL] at h
  | cons c cs ih =>
    intro a b h
    by_cases hc : c = sep
    · rw [splitOnceL, if_pos hc] at h
      have h2 := Option.some.inj h
      have ha : ([] : List Char) = a := congrArg Prod.fst h2
      have hb : cs = b := congrArg Prod.snd h2
      subst ha; subst hb; subst hc; rfl
    · rw [splitOnceL, if_neg hc] at h
      cases hsp : splitOnceL sep cs with
      | none => rw [hsp] at h; simp at h
      | some p =>
        rw [hsp] at h
        simp only [Option.map_some'] at h
        have h2 := Option.some.inj h
        have ha : c :: p.1 = a := congrArg Prod.fst h2
        have hb : p.2 = b := congrArg Prod.snd h2
        have hcs := ih p.1 p.2 (by rw [hsp])
        subst ha; subst hb
        simp [hcs]

theorem joinSlash_splitSlashOnce (s : String) : joinSlash (splitSlashOnce s) = s := by
  unfold splitSlashOnce
  cases h : splitOnceL '/' s.data with
  | none => rfl
  | some p =>
    have hs := splitOnceL_spec '/' s.data p.1 p.2 (by simpa using h)
    apply String.ext
    simp only [joinSlash, String.data_append]
    rw [hs]
    simp

theorem idOf_assign (p : Nat) (s : String) : idOf ⟨p, splitSlashOnce s⟩ = s :=
  joinSlash_splitSlashOnce s

theorem removeFirst_eq_erase (x : String) :
    ∀ l : List String, x ∈ l → removeFirst l x = some (l.erase x) := by
  intro l
  induction l with
  | nil => intro hx; cases hx
  | cons y ys ih =>
    intro hx
    by_cases hy : y = x
    · subst hy
      simp [removeFirst, List.erase_cons_head]
    · have hx2 : x ∈ ys := by
        rcases List.mem_cons.1 hx with h | h
        · exact absurd h.symm hy
        · exact h
      rw [removeFirst, if_neg hy, ih hx2]
      simp [List.erase_cons_tail, hy]

theorem mem_of_removeFirst_some (x : String) :
    ∀ {l r : List String}, removeFirst l x = some r → x ∈ l := by
  intro l
  induction l with
  | nil => intro r h; simp [removeFirst] at h
  | cons y ys ih =>
    intro r h
    by_cases hy : y = x
    · subst hy; exact List.mem_cons_self y ys
    · rw [removeFirst, if_neg hy] at h
      cases hr : removeFirst ys x with
      | none => rw [hr] at h; simp at h
      | some r2 => exact List.mem_cons_of_mem y (ih hr)

theorem removePass_eq_foldIds (pbs : List PriorityEntry) :
    ∀ images : List String,
      removePass pbs images = (flatIds pbs).foldlM removeFirst images := by
  induction pbs with
  | nil => intro images; rfl
  | cons e pbs ih =>
    intro images
    rw [removePass, List.foldlM_cons]
    rw [show flatIds (e :: pbs) = entryIds e ++ flatIds pbs by simp [flatIds]]
    rw [List.foldlM_append]
    cases hi : (entryIds e).foldlM removeFirst images with
    | none => rfl
    | some i =>
      show pbs.foldlM (fun imgs entry => (entryIds entry).foldlM removeFirst imgs) i =
        (flatIds pbs).foldlM removeFirst i
      exact ih i

theorem foldRemove_some (ids : List String) :
    ∀ l : List String, ids.Nodup → (∀ x ∈ ids, x ∈ l) →
      ids.foldlM removeFirst l = some (l.diff ids) := by
  induction ids with
  | nil => intro l _ _; rfl
  | cons x ids ih =>
    intro l hnd hmem
    rw [List.foldlM_cons, removeFirst_eq_erase x l (hmem x (List.mem_cons_self x ids))]
    show ids.foldlM removeFirst (l.erase x) = some (l.diff (x :: ids))
    rw [List.diff_cons]
    refine ih (l.erase x) (List.Nodup.of_cons hnd) ?_
    intro y hy
    have hne : y ≠ x := by
      intro hcon
      subst hcon
      exact (List.nodup_cons.1 hnd).1 hy
    exact (List.mem_erase_of_ne hne).2 (hmem y (List.mem_cons_of_mem x hy))

theorem foldRemove_mem (ids : List String) :
    ∀ l r : List String, ids.foldlM removeFirst l = some r → ∀ x ∈ ids, x ∈ l := by
  induction ids with
  | nil => intro l r _ x hx; cases hx
  | cons y ids ih =>
    intro l r h x hx
    rw [List.foldlM_cons] at h
    cases hr : removeFirst l y with
    | none => rw [hr] at h; simp at h
    | some l2 =>
      rw [hr] at h
      have hyl : y ∈ l := mem_of_removeFirst_some y hr
      rcases List.mem_cons.1 hx with hxy | hxi
      · subst hxy; exact hyl
      · have hl2 : l2 = l.erase y := by
          rw [removeFirst_eq_erase y l hyl] at hr
          exact (Option.some.inj hr).symm
        have hx2 : x ∈ l2 := ih l2 r h x hxi
        rw [hl2] at hx2
        exact (List.erase_sublist y l).subset hx2

/-- C4: a priority configuration referencing an identifier absent from the
discovered set makes sort_images raise before producing any assignment, and
the whole build pipeline aborts before any build step runs: its result is
`none` for every continuation, so zero builds are started. -/
theorem C4_unknown_id_fatal (images_ : List (String × List String))
    (pbs : List PriorityEntry) (x : String)
    (hx : x ∈ flatIds pbs) (hnx : x ∉ discoveredIds images_) :
    sort_images images_ pbs = none ∧
      ∀ (α : Type) (run_ : List ImageConf → α), buildAllImages run_ images_ pbs = none := by
  have hsort : sort_images images_ pbs = none := by
    unfold sort_images
    cases hrp : removePass pbs (List.insertionSort strLe (discoveredIds images_)) with
    | none => rfl
    | some rest =>
      exfalso
      rw [removePass_eq_foldIds] at hrp
      have hmem := foldRemove_mem (flatIds pbs) _ rest hrp x hx
      exact hnx ((List.perm_insertionSort strLe (discoveredIds images_)).subset hmem)
  exact ⟨hsort, fun α run_ => by unfold buildAllImages; rw [hsort]; rfl⟩

theorem C4_unknown_id_fatal_witness :
    ("a/1" : String) ∈ flatIds [.single "b/1", .single "a/1"] ∧
    ("a/1" : String) ∉ discoveredIds [("b", ["1", "2"])] ∧
    (sort_images [("b", ["1", "2"])] [.single "b/1", .single "a/1"] = none ∧
      ∀ (α : Type) (run_ : List ImageConf → α),
        buildAllImages run_ [("b", ["1", "2"])] [.single "b/1", .single "a/1"] = none) :=
  ⟨by decide, by decide,
    C4_unknown_id_fatal [("b", ["1", "2"])] [.single "b/1", .single "a/1"] "a/1"
      (by decide) (by decide)⟩

theorem assignPrios_mem_of (pbs : List PriorityEntry) :
    ∀ (p0 k : Nat) (hk : k < pbs.length) (s : String),
      s ∈ entryIds (pbs.get ⟨k, hk⟩) →
      (⟨p0 + k, splitSlashOnce s⟩ : ImageConf) ∈ assignPrios pbs p0 := by
  induction pbs with
  | nil => intro p0 k hk; exact absurd hk (Nat.not_lt_zero k)
  | cons e pbs ih =>
    intro p0 k hk s hs
    cases k with
    | zero =>
      rw [assignPrios]
      apply List.mem_append_left
      rw [Nat.add_zero]
      exact List.mem_map_of_mem _ hs
    | succ k2 =>
      rw [assignPrios]
      apply List.mem_append_right
      have h2 := ih (p0 + 1) k2 (Nat.lt_of_succ_lt_succ hk) s hs
      rw [show p0 + (k2 + 1) = (p0 + 1) + k2 by omega]
      exact h2

theorem of_mem_assignPrios (pbs : List PriorityEntry) :
    ∀ (p0 : Nat) (ic : ImageConf), ic ∈ assignPrios pbs p0 →
      idOf ic ∈ flatIds pbs ∧ p0 ≤ ic.priority ∧ ic.priority < p0 + pbs.length := by
  induction pbs with
  | nil => intro p0 ic h; exact absurd h (List.not_mem_nil ic)
  | cons e pbs ih =>
    intro p0 ic h
    rw [assignPrios] at h
    rcases List.mem_append.1 h with h1 | h2
    · obtain ⟨s, hs, rfl⟩ := List.mem_map.1 h1
      refine ⟨?_, Nat.le_refl _, ?_⟩
      · rw [show idOf ⟨p0, splitSlashOnce s⟩ = s from idOf_assign p0 s,
          show flatIds (e :: pbs) = entryIds e ++ flatIds pbs by simp [flatIds]]
        exact List.mem_append_left _ hs
      · simp only [List.length_cons]
        omega
    · obtain ⟨hid, hle, hlt⟩ := ih (p0 + 1) ic h2
      refine ⟨?_, by omega, ?_⟩
      · rw [show flatIds (e :: pbs) = entryIds e ++ flatIds pbs by simp [flatIds]]
        exact List.mem_append_right _ hid
      · simp only [List.length_cons]
        omega

theorem map_idOf_assignPrios (pbs : List PriorityEntry) :
    ∀ p0, (assignPrios pbs p0).map idOf = flatIds pbs := by
  induction pbs with
  | nil => intro p0; rfl
  | cons e pbs ih =>
    intro p0
    rw [assignPrios, List.map_append, List.map_map, ih,
      show flatIds (e :: pbs) = entryIds e ++ flatIds pbs by simp [flatIds]]
    congr 1
    have hfun : (idOf ∘ fun s => (⟨p0, splitSlashOnce s⟩ : ImageConf)) = id := by
      funext s
      exact idOf_assign p0 s
    rw [hfun, List.map_id]

/-- C3: for well-formed inputs — distinct discovered identifiers, a priority
configuration whose referenced identifiers are pairwise distinct and all
discovered (multiset containment in the discovered set), every entry naming at
least one identifier — sort_images succeeds and its result satisfies: the
identifiers are exactly the discovered ones, each appearing exactly once; every
identifier of the configuration entry at 1-based position i receives tier i
(grouped entries share it); every tier lies in [1, #entries + 1]; an
assignment's identifier is explicitly configured iff its tier is at most
#entries, so no configured identifier gets the auto tier; the sequence is the
configured part followed by the auto part, whose members all carry tier
#entries + 1, are lexicographically sorted by identifier, and are exactly the
unreferenced discovered identifiers; every tier 1..#entries is inhabited and
the auto tier is inhabited whenever an unreferenced identifier exists, so
tiers are contiguous from 1. -/
theorem C3_sort_images_partition (images_ : List (String × List String))
    (pbs : List PriorityEntry)
    (hNd0 : (discoveredIds images_).Nodup)
    (hNdC : (flatIds pbs).Nodup)
    (hSub : ∀ x ∈ flatIds pbs, x ∈ discoveredIds images_)
    (hNe : ∀ e ∈ pbs, entryIds e ≠ []) :
    ∃ res : List ImageConf, sort_images images_ pbs = some res ∧
      (res.map idOf).Perm (discoveredIds images_) ∧
      (∀ (k : Nat) (hk : k < pbs.length), ∀ s ∈ entryIds (pbs.get ⟨k, hk⟩),
        (⟨k + 1, splitSlashOnce s⟩ : ImageConf) ∈ res) ∧
      (∀ ic ∈ res, 1 ≤ ic.priority ∧ ic.priority ≤ pbs.length + 1) ∧
      (∀ ic ∈ res, (idOf ic ∈ flatIds pbs ↔ ic.priority ≤ pbs.length)) ∧
      (∃ l₁ l₂ : List ImageConf, res = l₁ ++ l₂ ∧
        (∀ ic ∈ l₁, ic.priority ≤ pbs.length) ∧
        (∀ ic ∈ l₂, ic.priority = pbs.length + 1) ∧
        List.Sorted strLe (l₂.map idOf) ∧
        (l₂.map idOf).Perm ((discoveredIds images_).filter
          (fun x => decide (x ∉ flatIds pbs)))) ∧
      ((∀ k : Nat, k < pbs.length → ∃ ic ∈ res, ic.priority = k + 1) ∧
        ((discoveredIds images_).filter (fun x => decide (x ∉ flatIds pbs)) ≠ [] →
          ∃ ic ∈ res, ic.priority = pbs.length + 1)) := by
  have hperm : (List.insertionSort strLe (discoveredIds images_)).Perm
      (discoveredIds images_) := List.perm_insertionSort strLe (discoveredIds images_)
  have hsortedNd : (List.insertionSort strLe (discoveredIds images_)).Nodup :=
    hperm.nodup_iff.2 hNd0
  have hsub2 : ∀ x ∈ flatIds pbs, x ∈ List.insertionSort strLe (discoveredIds images_) :=
    fun x hx => hperm.mem_iff.2 (hSub x hx)
  have hrp : removePass pbs (List.insertionSort strLe (discoveredIds images_)) =
      some ((List.insertionSort strLe (discoveredIds images_)).diff (flatIds pbs)) := by
    rw [removePass_eq_foldIds]
    exact foldRemove_some (flatIds pbs) _ hNdC hsub2
  have hdiff : (List.insertionSort strLe (discoveredIds images_)).diff (flatIds pbs) =
      (List.insertionSort strLe (discoveredIds images_)).filter
        (fun x => decide (x ∉ flatIds pbs)) := by
    rw [List.Nodup.diff_eq_filter hsortedNd]
  have hmapRest :
      (((List.insertionSort strLe (discoveredIds images_)).diff (flatIds pbs)).map
        (fun img => (⟨pbs.length + 1, splitSlashOnce img⟩ : ImageConf))).map idOf =
      (List.insertionSort strLe (discoveredIds images_)).diff (flatIds pbs) := by
    rw [List.map_map]
    have hfun : (idOf ∘ fun img => (⟨pbs.length + 1, splitSlashOnce img⟩ : ImageConf)) = id := by
      funext s
      exact idOf_assign (pbs.length + 1) s
    rw [hfun, List.map_id]
  refine ⟨assignPrios pbs 1 ++
      ((List.insertionSort strLe (discoveredIds images_)).diff (flatIds pbs)).map
        (fun img => ⟨pbs.length + 1, splitSlashOnce img⟩), ?_, ?_, ?_, ?_, ?_, ?_, ?_⟩
  · simp only [sort_images, hrp]
  · rw [List.map_append, map_idOf_assignPrios, hmapRest, hdiff]
    have hfc : (fun x : String => decide (x ∉ flatIds pbs)) =
        (fun x : String => !decide (x ∈ flatIds pbs)) := by
      funext x
      exact decide_not
    have hin : ((List.insertionSort strLe (discoveredIds images_)).filter
        (fun x => decide (x ∈ flatIds pbs))).Perm (flatIds pbs) := by
      refine (List.perm_ext_iff_of_nodup (hsortedNd.filter _) hNdC).2 ?_
      intro a
      simp only [List.mem_filter, decide_eq_true_eq]
      exact ⟨fun h => h.2, fun h => ⟨hsub2 a h, h⟩⟩
    have hstep1 : (flatIds pbs ++
        (List.insertionSort strLe (discoveredIds images_)).filter
          (fun x => decide (x ∉ flatIds pbs))).Perm
        ((List.insertionSort strLe (discoveredIds images_)).filter
            (fun x => decide (x ∈ flatIds pbs)) ++
          (List.insertionSort strLe (discoveredIds images_)).filter
            (fun x => decide (x ∉ flatIds pbs))) :=
      hin.symm.append_right _
    have hstep2 : ((List.insertionSort strLe (discoveredIds images_)).filter
          (fun x => decide (x ∈ flatIds pbs)) ++
        (List.insertionSort strLe (discoveredIds images_)).filter
          (fun x => decide (x ∉ flatIds pbs))).Perm
        (List.insertionSort strLe (discoveredIds images_)) := by
      rw [hfc]
      exact List.filter_append_perm _ _
    exact (hstep1.trans hstep2).trans hperm
  · intro k hk s hs
    apply List.mem_append_left
    have h2 := assignPrios_mem_of pbs 1 k hk s hs
    rw [show k + 1 = 1 + k by omega]
    exact h2
  · intro ic hic
    rcases List.mem_append.1 hic with h1 | h2
    · obtain ⟨_, hle, hlt⟩ := of_mem_assignPrios pbs 1 ic h1
      omega
    · obtain ⟨s, _, rfl⟩ := List.mem_map.1 h2
      simp
  · intro ic hic
    rcases List.mem_append.1 hic with h1 | h2
    · obtain ⟨hid, hle, hlt⟩ := of_mem_assignPrios pbs 1 ic h1
      exact iff_of_true hid (by omega)
    · obtain ⟨s, hs, rfl⟩ := List.mem_map.1 h2
      rw [hdiff] at hs
      have hnotin : s ∉ flatIds pbs := by
        have := (List.mem_filter.1 hs).2
        simpa using this
      refine iff_of_false ?_ (by simp)
      rw [show idOf ⟨pbs.length + 1, splitSlashOnce s⟩ = s from idOf_assign _ s]
      exact hnotin
  · refine ⟨assignPrios pbs 1,
      ((List.insertionSort strLe (discoveredIds images_)).diff (flatIds pbs)).map
        (fun img => ⟨pbs.length + 1, splitSlashOnce img⟩), rfl, ?_, ?_, ?_, ?_⟩
    · intro ic hic
      obtain ⟨_, _, hlt⟩ := of_mem_assignPrios pbs 1 ic hic
      omega
    · intro ic hic
      obtain ⟨s, _, rfl⟩ := List.mem_map.1 hic
      rfl
    · rw [hmapRest, hdiff]
      exact (List.sorted_insertionSort strLe (discoveredIds images_)).filter _
    · rw [hmapRest, hdiff]
      exact hperm.filter _
  · constructor
    · intro k hk
      have hne2 := hNe (pbs.get ⟨k, hk⟩) (pbs.get_mem k hk)
      obtain ⟨s, hs⟩ := List.exists_mem_of_ne_nil _ hne2
      refine ⟨⟨k + 1, splitSlashOnce s⟩, ?_, rfl⟩
      apply List.mem_append_left
      have h2 := assignPrios_mem_of pbs 1 k hk s hs
      rw [show k + 1 = 1 + k by omega]
      exact h2
    · intro hfne
      have hperm2 := hperm.filter (fun x => decide (x ∉ flatIds pbs))
      have hne2 : (List.insertionSort strLe (discoveredIds images_)).filter
          (fun x => decide (x ∉ flatIds pbs)) ≠ [] := by
        intro hcon
        rw [hcon] at hperm2
        exact hfne hperm2.symm.eq_nil
      rw [← hdiff] at hne2
      obtain ⟨s, hs⟩ := List.exists_mem_of_ne_nil _ hne2
      exact ⟨⟨pbs.length + 1, splitSlashOnce s⟩,
        List.mem_append_right _ (List.mem_map_of_mem _ hs), rfl⟩

theorem C3_sort_images_partition_witness :
    (discoveredIds [("app", ["1", "2"]), ("base", ["1"])]).Nodup ∧
    (flatIds [.single "base/1", .group ["app/2"]]).Nodup ∧
    (∀ x ∈ flatIds [.single "base/1", .group ["app/2"]],
      x ∈ discoveredIds [("app", ["1", "2"]), ("base", ["1"])]) ∧
    (∀ e ∈ ([.single "base/1", .group ["app/2"]] : List PriorityEntry), entryIds e ≠ []) ∧
    (∃ res : List ImageConf,
      sort_images [("app", ["1", "2"]), ("base", ["1"])]
        [.single "base/1", .group ["app/2"]] = some res ∧
      (res.map idOf).Perm (discoveredIds [("app", ["1", "2"]), ("base", ["1"])]) ∧
      (∀ (k : Nat) (hk : k < ([.single "base/1", .group ["app/2"]] : List PriorityEntry).length),
        ∀ s ∈ entryIds (([.single "base/1", .group ["app/2"]] : List PriorityEntry).get ⟨k, hk⟩),
        (⟨k + 1, splitSlashOnce s⟩ : ImageConf) ∈ res) ∧
      (∀ ic ∈ res, 1 ≤ ic.priority ∧
        ic.priority ≤ ([.single "base/1", .group ["app/2"]] : List PriorityEntry).length + 1) ∧
      (∀ ic ∈ res, (idOf ic ∈ flatIds [.single "base/1", .group ["app/2"]] ↔
        ic.priority ≤ ([.single "base/1", .group ["app/2"]] : List PriorityEntry).length)) ∧
      (∃ l₁ l₂ : List ImageConf, res = l₁ ++ l₂ ∧
        (∀ ic ∈ l₁,
          ic.priority ≤ ([.single "base/1", .group ["app/2"]] : List PriorityEntry).length) ∧
        (∀ ic ∈ l₂,
          ic.priority =
            ([.single "base/1", .group ["app/2"]] : List PriorityEntry).length + 1) ∧
        List.Sorted strLe (l₂.map idOf) ∧
        (l₂.map idOf).Perm ((discoveredIds [("app", ["1", "2"]), ("base", ["1"])]).filter
          (fun x => decide (x ∉ flatIds [.single "base/1", .group ["app/2"]])))) ∧
      ((∀ k : Nat, k < ([.single "base/1", .group ["app/2"]] : List PriorityEntry).length →
          ∃ ic ∈ res, ic.priority = k + 1) ∧
        (((discoveredIds [("app", ["1", "2"]), ("base", ["1"])]).filter
            (fun x => decide (x ∉ flatIds [.single "base/1", .group ["app/2"]]))) ≠ [] →
          ∃ ic ∈ res,
            ic.priority =
              ([.single "base/1", .group ["app/2"]] : List PriorityEntry).length + 1))) :=
  ⟨by decide, by decide, by decide, by decide,
    C3_sort_images_partition [("app", ["1", "2"]), ("base", ["1"])]
      [.single "base/1", .group ["app/2"]] (by decide) (by decide) (by decide) (by decide)⟩

/-! ## Build scheduling (main.py lines 31-121) -/

/-- A tiered build assignment as the scheduler consumes it: the priority tier
and the (image, version) pair unpacked from the resolved assignment. -/
structure PImage where
  priority : Nat
  image : String × String
deriving DecidableEq

/-- Modelled from the spec: build_and_upload_image (imported by main.py from
dibber.images, not under src/) builds and optionally pushes one image/version
given the accumulated contexts and returns the produced BuildContext list and
the unique-id tag record; the scheduler treats it as an arbitrary function of
the image pair and the context list it receives. -/
def BuildFun : Type := String × String → List String → List String × String

/-- Observable events of one scheduler run. -/
inductive Ev where
  | dispatch (prio : Nat) (imgs : List (String × String))
  | call (img : String × String) (contexts : List String)
  | tierDone (prio : Nat)
  | terminate
  | writeFiles (contexts uniq_ids : List String)
deriving DecidableEq

/-- Sequential branch of _build_all_images (main.py lines 77-84): one build at
a time, the context list growing after every single build. Python's
`uniq_ids += new_uniq_ids` extends element-wise, so a string record is
appended character by character. -/
def runSeq (bld : BuildFun) : List (String × String) → List String → List String →
    List Ev × (List String × List String)
  | [], contexts, uniq_ids => ([], (contexts, uniq_ids))
  | im :: rest, contexts, uniq_ids =>
    let r := bld im contexts
    let (evs, out) := runSeq bld rest (contexts ++ r.1)
      (uniq_ids ++ r.2.data.map (fun ch => String.mk [ch]))
    (Ev.call im contexts :: evs, out)

/-- Sequential _build_all_images (main.py lines 77-84 and 120-121): build each
assignment in resolved order, then persist the manifest information. -/
def buildAllSeq (bld : BuildFun) (imgs : List PImage) :
    List Ev × (List String × List String) :=
  let r := runSeq bld (imgs.map (fun ic => ic.image)) [] []
  (r.1 ++ [Ev.writeFiles r.2.1 r.2.2], r.2)

/-- The assignments of one tier, in resolved order (main.py lines 98-102). -/
def tierImages (imgs : List PImage) (p : Nat) : List (String × String) :=
  (imgs.filter (fun ic => decide (ic.priority = p))).map (fun ic => ic.image)

/-- Parallel tier loop of _build_all_images (main.py lines 97-116): per tier,
dispatch every assignment with the tier-start context list (starmap_async,
main.py lines 31-35), await all results (res.get, lines 37-49), extend the
context and unique-id lists (lines 110-112), and continue; a
KeyboardInterrupt delivered during the tier terminates the pool and re-raises
(lines 113-116). The interrupt oracle `intr` says which tier, if any, is
interrupted while in flight. -/
def runTiers (bld : BuildFun) (intr : Nat → Bool) (imgs : List PImage) :
    List Nat → List String → List String →
    List Ev × Except Unit (List String × List String)
  | [], contexts, uniq_ids => ([], .ok (contexts, uniq_ids))
  | p :: rest, contexts, uniq_ids =>
    let tierImgs := tierImages imgs p
    if intr p then
      ([Ev.dispatch p tierImgs, Ev.terminate], .error ())
    else
      let results := tierImgs.map (fun im => bld im contexts)
      let r := runTiers bld intr imgs rest
        (contexts ++ (results.map (fun x => x.1)).flatten)
        (uniq_ids ++ results.map (fun x => x.2))
      (Ev.dispatch p tierImgs :: tierImgs.map (fun im => Ev.call im contexts) ++
        Ev.tierDone p :: r.1, r.2)

/-- Python max over the assignment priorities (main.py line 96); the caller
guarantees a nonempty list. -/
def maxPriority (imgs : List PImage) : Nat :=
  (imgs.map (fun ic => ic.priority)).foldl max 0

/-- Parallel _build_all_images (main.py lines 85-121): tiers 1..max in order;
the manifest information is persisted only when no tier was interrupted. -/
def buildAllPar (bld : BuildFun) (intr : Nat → Bool) (imgs : List PImage) :
    List Ev × Except Unit (List String × List String) :=
  let r := runTiers bld intr imgs (List.range' 1 (maxPriority imgs)) [] []
  match r.2 with
  | .ok res => (r.1 ++ [Ev.writeFiles res.1 res.2], .ok res)
  | .error () => (r.1, .error ())

/-- The context list accumulated after tiers 1..p, each tier built against the
accumulation of the strictly earlier tiers. -/
def ctxsUpTo (bld : BuildFun) (imgs : List PImage) : Nat → List String
  | 0 => []
  | p + 1 =>
    let c := ctxsUpTo bld imgs p
    c ++ ((tierImages imgs (p + 1)).map (fun im => (bld im c).1)).flatten

/-- The tier of a dispatch event, if any. -/
def dispOf : Ev → Option Nat
  | Ev.dispatch p _ => some p
  | _ => none

/-- The tiers dispatched in a trace, in order. -/
def dispatchPrios (evs : List Ev) : List Nat :=
  evs.filterMap dispOf

/-- The prefix of tiers a run attempts: everything up to and including the
first interrupted one. -/
def prefixUntil (intr : Nat → Bool) : List Nat → List Nat
  | [] => []
  | p :: rest => if intr p then [p] else p :: prefixUntil intr rest

theorem writeFiles_not_mem_runTiers (bld : BuildFun) (intr : Nat → Bool) (imgs : List PImage) :
    ∀ (ps : List Nat) (ctx uids c u : List String),
      Ev.writeFiles c u ∉ (runTiers bld intr imgs ps ctx uids).1 := by
  intro ps
  induction ps with
  | nil => intro ctx uids c u h; exact absurd h (List.not_mem_nil _)
  | cons p rest ih =>
    intro ctx uids c u h
    rw [runTiers] at h
    by_cases hp : intr p = true
    · rw [if_pos hp] at h
      rcases List.mem_cons.1 h with h1 | h2
      · exact Ev.noConfusion h1
      · rcases List.mem_cons.1 h2 with h3 | h4
        · exact Ev.noConfusion h3
        · exact absurd h4 (List.not_mem_nil _)
    · rw [if_neg hp] at h
      rcases List.mem_cons.1 h with h1 | h2
      · exact Ev.noConfusion h1
      · rcases List.mem_append.1 h2 with h3 | h4
        · obtain ⟨im, _, heq⟩ := List.mem_map.1 h3
          exact Ev.noConfusion heq
        · rcases List.mem_cons.1 h4 with h5 | h6
          · exact Ev.noConfusion h5
          · exact ih _ _ c u h6

theorem runTiers_error_of_intr (bld : BuildFun) (intr : Nat → Bool) (imgs : List PImage) :
    ∀ (ps : List Nat) (ctx uids : List String), (∃ p ∈ ps, intr p = true) →
      (runTiers bld intr imgs ps ctx uids).2 = .error () ∧
      Ev.terminate ∈ (runTiers bld intr imgs ps ctx uids).1 := by
  intro ps
  induction ps with
  | nil => rintro ctx uids ⟨p, hp, _⟩; exact absurd hp (List.not_mem_nil p)
  | cons q rest ih =>
    rintro ctx uids ⟨p, hp, hip⟩
    rw [runTiers]
    by_cases hq : intr q = true
    · rw [if_pos hq]
      exact ⟨rfl, List.mem_cons_of_mem _ (List.mem_cons_self _ _)⟩
    · have hpr : p ∈ rest := by
        rcases List.mem_cons.1 hp with h | h
        · subst h; exact absurd hip hq
        · exact h
      rw [if_neg hq]
      obtain ⟨herr, hterm⟩ := ih _ _ ⟨p, hpr, hip⟩
      refine ⟨herr, ?_⟩
      exact List.mem_cons_of_mem _ (List.mem_append_right _ (List.mem_cons_of_mem _ hterm))

theorem filterMap_dispOf_calls (ctx : List String) :
    ∀ (ti : List (String × String)) (tail : List Ev),
      List.filterMap dispOf (ti.map (fun im => Ev.call im ctx) ++ tail) =
        List.filterMap dispOf tail := by
  intro ti
  induction ti with
  | nil => intro tail; rfl
  | cons im ti ih => intro tail; exact ih tail

theorem dispatchPrios_runTiers (bld : BuildFun) (intr : Nat → Bool) (imgs : List PImage) :
    ∀ (ps : List Nat) (ctx uids : List String),
      dispatchPrios (runTiers bld intr imgs ps ctx uids).1 = prefixUntil intr ps := by
  intro ps
  induction ps with
  | nil => intro ctx uids; rfl
  | cons p rest ih =>
    intro ctx uids
    rw [runTiers, prefixUntil]
    by_cases hp : intr p = true
    · rw [if_pos hp, if_pos hp]
      rfl
    · rw [if_neg hp, if_neg hp]
      show p :: List.filterMap dispOf
          ((tierImages imgs p).map (fun im => Ev.call im ctx) ++ Ev.tierDone p :: _) =
        p :: prefixUntil intr rest
      rw [filterMap_dispOf_calls]
      exact congrArg (p :: ·) (ih _ _)

theorem prefixUntil_range' (intr : Nat → Bool) :
    ∀ n a : Nat, ∃ k, k ≤ n ∧ prefixUntil intr (List.range' a n) = List.range' a k := by
  intro n
  induction n with
  | zero => intro a; exact ⟨0, Nat.le_refl 0, rfl⟩
  | succ n ih =>
    intro a
    rw [List.range'_succ, prefixUntil]
    by_cases h : intr a = true
    · refine ⟨1, by omega, ?_⟩
      rw [if_pos h, List.range'_one]
    · obtain ⟨k, hk, he⟩ := ih (a + 1)
      refine ⟨k + 1, by omega, ?_⟩
      rw [if_neg h, he, List.range'_succ]

theorem prefixUntil_eq_self (intr : Nat → Bool) :
    ∀ ps : List Nat, (∀ p ∈ ps, intr p = false) → prefixUntil intr ps = ps := by
  intro ps
  induction ps with
  | nil => intro _; rfl
  | cons p rest ih =>
    intro h
    rw [prefixUntil, if_neg (by rw [h p (List.mem_cons_self p rest)]; simp), 
      ih (fun q hq => h q (List.mem_cons_of_mem p hq))]

theorem split_surgery (e : Ev) :
    ∀ (xs ys l₁ l₂ : List Ev), l₁ ++ e :: l₂ = xs ++ ys → e ∉ xs →
      ∃ m, l₁ = xs ++ m ∧ m ++ e :: l₂ = ys := by
  intro xs
  induction xs with
  | nil => intro ys l₁ l₂ h _; exact ⟨l₁, by simp, h⟩
  | cons x xs ih =>
    intro ys l₁ l₂ h hne
    cases l₁ with
    | nil =>
      rw [List.nil_append, List.cons_append] at h
      injection h with h1 _
      exact absurd (h1 ▸ List.mem_cons_self x xs) hne
    | cons y l₁ =>
      rw [List.cons_append, List.cons_append] at h
      injection h with h1 h2
      obtain ⟨m, hm1, hm2⟩ := ih ys l₁ l₂ h2 (fun hmem => hne (List.mem_cons_of_mem x hmem))
      exact ⟨m, by rw [List.cons_append, hm1, h1], hm2⟩

theorem runTiers_dispatch_ordering (bld : BuildFun) (intr : Nat → Bool) (imgs : List PImage) :
    ∀ (n a : Nat) (ctx uids : List String) (l₁ l₂ : List Ev) (q : Nat)
      (qimgs : List (String × String)),
      (runTiers bld intr imgs (List.range' a n) ctx uids).1 = l₁ ++ Ev.dispatch q qimgs :: l₂ →
      a ≤ q ∧ ∀ p, a ≤ p → p < q →
        Ev.tierDone p ∈ l₁ ∧ ∀ im ∈ tierImages imgs p, ∃ c, Ev.call im c ∈ l₁ := by
  intro n
  induction n with
  | zero =>
    intro a ctx uids l₁ l₂ q qimgs h
    rw [show List.range' a 0 = [] from rfl, runTiers] at h
    simp at h
  | succ n ih =>
    intro a ctx uids l₁ l₂ q qimgs h
    rw [List.range'_succ, runTiers] at h
    by_cases ha : intr a = true
    · rw [if_pos ha] at h
      cases l₁ with
      | nil =>
        rw [List.nil_append] at h
        injection h with h1 _
        have haq : a = q := by injection h1
        exact ⟨by omega, fun p hap hpq => by omega⟩
      | cons x l₁ =>
        rw [List.cons_append] at h
        injection h with h1 h2
        cases l₁ with
        | nil =>
          rw [List.nil_append] at h2
          injection h2 with h3 _
          exact Ev.noConfusion h3
        | cons y l₁ =>
          rw [List.cons_append] at h2
          injection h2 with _ h4
          exact absurd h4.symm (by simp)
    · rw [if_neg ha] at h
      cases l₁ with
      | nil =>
        rw [List.nil_append] at h
        injection h with h1 _
        have haq : a = q := by injection h1
        exact ⟨by omega, fun p hap hpq => by omega⟩
      | cons x l₁ =>
        rw [List.cons_append] at h
        injection h with h1 h2
        obtain ⟨m0, hm1, hm2⟩ := split_surgery (Ev.dispatch q qimgs)
          ((tierImages imgs a).map (fun im => Ev.call im ctx))
          _ l₁ l₂ h2.symm
          (by
            intro hmem
            obtain ⟨im, _, heq⟩ := List.mem_map.1 hmem
            exact Ev.noConfusion heq)
        cases m0 with
        | nil =>
          rw [List.nil_append] at hm2
          injection hm2 with h3 _
          exact Ev.noConfusion h3
        | cons z m =>
          rw [List.cons_append] at hm2
          injection hm2 with hz hm3
          subst hz
          obtain ⟨haq1, hrest⟩ := ih (a + 1) _ _ m l₂ q qimgs hm3.symm
          refine ⟨by omega, ?_⟩
          intro p hap hpq
          by_cases hpa : p = a
          · subst hpa
            constructor
            · apply List.mem_cons_of_mem
              rw [hm1]
              exact List.mem_append_right _ (List.mem_cons_self _ _)
            · intro im him
              refine ⟨ctx, ?_⟩
              apply List.mem_cons_of_mem
              rw [hm1]
              exact List.mem_append_left _ (List.mem_map_of_mem _ him)
          · have hp1 : a + 1 ≤ p := by omega
            obtain ⟨ht, hc⟩ := hrest p hp1 hpq
            constructor
            · apply List.mem_cons_of_mem
              rw [hm1]
              exact List.mem_append_right _ (List.mem_cons_of_mem _ ht)
            · intro im him
              obtain ⟨c, hcm⟩ := hc im him
              refine ⟨c, ?_⟩
              apply List.mem_cons_of_mem
              rw [hm1]
              exact List.mem_append_right _ (List.mem_cons_of_mem _ hcm)

theorem dispatchPrios_append_wf (evs : List Ev) (c u : List String) :
    dispatchPrios (evs ++ [Ev.writeFiles c u]) = dispatchPrios evs := by
  unfold dispatchPrios
  rw [List.filterMap_append, show List.filterMap dispOf [Ev.writeFiles c u] = [] from rfl,
    List.append_nil]

theorem dispatchPrios_buildAllPar (bld : BuildFun) (intr : Nat → Bool) (imgs : List PImage) :
    dispatchPrios (buildAllPar bld intr imgs).1 =
      prefixUntil intr (List.range' 1 (maxPriority imgs)) := by
  unfold buildAllPar
  dsimp only
  cases hr : (runTiers bld intr imgs (List.range' 1 (maxPriority imgs)) [] []).2 with
  | ok res =>
    dsimp only
    rw [dispatchPrios_append_wf, dispatchPrios_runTiers]
  | error e =>
    cases e
    dsimp only
    rw [dispatchPrios_runTiers]

/-- C1: in parallel mode the scheduler processes priority tiers in strictly
ascending order: the dispatched tiers always form an initial range 1..k of
1..max (all of it when no interrupt fires), and whenever tier q is dispatched,
every strictly earlier tier p has already fully completed — tier p's
completion event and a completed build invocation for each of tier p's
assignments precede that dispatch in the trace; with tiers {1:[A,B], 2:[C]}
this means C is never dispatched before both A and B have completed. -/
theorem C1_tiers_ascending_and_blocking (bld : BuildFun) (intr : Nat → Bool)
    (imgs : List PImage) :
    (∃ k, k ≤ maxPriority imgs ∧
      dispatchPrios (buildAllPar bld intr imgs).1 = List.range' 1 k) ∧
    ((∀ p ∈ List.range' 1 (maxPriority imgs), intr p = false) →
      dispatchPrios (buildAllPar bld intr imgs).1 = List.range' 1 (maxPriority imgs)) ∧
    (∀ (l₁ l₂ : List Ev) (q : Nat) (qimgs : List (String × String)),
      (buildAllPar bld intr imgs).1 = l₁ ++ Ev.dispatch q qimgs :: l₂ →
      ∀ p, 1 ≤ p → p < q →
        Ev.tierDone p ∈ l₁ ∧ ∀ im ∈ tierImages imgs p, ∃ c, Ev.call im c ∈ l₁) := by
  refine ⟨?_, ?_, ?_⟩
  · obtain ⟨k, hk, he⟩ := prefixUntil_range' intr (maxPriority imgs) 1
    exact ⟨k, hk, by rw [dispatchPrios_buildAllPar, he]⟩
  · intro hno
    rw [dispatchPrios_buildAllPar, prefixUntil_eq_self intr _ hno]
  · intro l₁ l₂ q qimgs h
    unfold buildAllPar at h
    dsimp only at h
    cases hr : (runTiers bld intr imgs (List.range' 1 (maxPriority imgs)) [] []).2 with
    | ok res =>
      rw [hr] at h
      dsimp only at h
      have h2 : (runTiers bld intr imgs (List.range' 1 (maxPriority imgs)) [] []).1 ++
          [Ev.writeFiles res.1 res.2] = l₁ ++ Ev.dispatch q qimgs :: l₂ := h
      rcases List.append_eq_append_iff.1 h2 with ⟨a', _, ha2⟩ | ⟨c', hc1, hc2⟩
      · cases a' with
        | nil => exact Ev.noConfusion (by injection ha2)
        | cons w a'' =>
          rw [List.cons_append] at ha2
          injection ha2 with _ hw
          exact absurd hw.symm (by simp)
      · cases c' with
        | nil =>
          rw [List.nil_append] at hc2
          exact Ev.noConfusion (by injection hc2)
        | cons z c'' =>
          rw [List.cons_append] at hc2
          injection hc2 with hz _
          subst hz
          exact (runTiers_dispatch_ordering bld intr imgs (maxPriority imgs) 1 [] []
            l₁ c'' q qimgs hc1).2
    | error e =>
      cases e
      rw [hr] at h
      dsimp only at h
      exact (runTiers_dispatch_ordering bld intr imgs (maxPriority imgs) 1 [] []
        l₁ l₂ q qimgs h).2

/-- C7: an operator interrupt delivered while some parallel tier 1..max is in
flight makes the run terminate the worker pool (a terminate event is traced),
re-raise the interrupt as a distinct interrupted outcome instead of returning
results, and skip manifest-information persistence entirely: no file-write
event occurs in the trace. -/
theorem C7_interrupt_terminates_and_raises (bld : BuildFun) (intr : Nat → Bool)
    (imgs : List PImage) (p : Nat)
    (hp1 : 1 ≤ p) (hpm : p ≤ maxPriority imgs) (hip : intr p = true) :
    (buildAllPar bld intr imgs).2 = .error () ∧
    Ev.terminate ∈ (buildAllPar bld intr imgs).1 ∧
    ∀ (c u : List String), Ev.writeFiles c u ∉ (buildAllPar bld intr imgs).1 := by
  have hmem : p ∈ List.range' 1 (maxPriority imgs) := List.mem_range'_1.2 ⟨hp1, by omega⟩
  obtain ⟨herr, hterm⟩ := runTiers_error_of_intr bld intr imgs
    (List.range' 1 (maxPriority imgs)) [] [] ⟨p, hmem, hip⟩
  have hb : buildAllPar bld intr imgs =
      ((runTiers bld intr imgs (List.range' 1 (maxPriority imgs)) [] []).1, .error ()) := by
    unfold buildAllPar
    dsimp only
    rw [herr]
  rw [hb]
  exact ⟨rfl, hterm, fun c u => writeFiles_not_mem_runTiers bld intr imgs _ [] [] c u⟩

/-- A concrete build function for witnesses: one context token per image. -/
def bldEx : BuildFun := fun im _ => (["ctx " ++ im.1], "u")

/-- The claim's {1:[A,B], 2:[C]} tier layout. -/
def imgsTiers : List PImage := [⟨1, ("a", "1")⟩, ⟨1, ("b", "1")⟩, ⟨2, ("c", "1")⟩]

/-- An interrupt delivered while tier 2 is in flight. -/
def intrTier2 : Nat → Bool := fun q => decide (q = 2)

theorem C7_interrupt_terminates_and_raises_witness :
    (1 ≤ 2 ∧ 2 ≤ maxPriority imgsTiers ∧ intrTier2 2 = true) ∧
    ((buildAllPar bldEx intrTier2 imgsTiers).2 = .error () ∧
      Ev.terminate ∈ (buildAllPar bldEx intrTier2 imgsTiers).1 ∧
      ∀ (c u : List String), Ev.writeFiles c u ∉ (buildAllPar bldEx intrTier2 imgsTiers).1) :=
  ⟨⟨by decide, by decide, by decide⟩,
    C7_interrupt_terminates_and_raises bldEx intrTier2 imgsTiers 2
      (by decide) (by decide) (by decide)⟩

theorem ctxsUpTo_succ (bld : BuildFun) (imgs : List PImage) (p : Nat) :
    ctxsUpTo bld imgs (p + 1) = ctxsUpTo bld imgs p ++
      (List.map (fun x => x.1)
        (List.map (fun im => bld im (ctxsUpTo bld imgs p)) (tierImages imgs (p + 1)))).flatten := by
  rw [ctxsUpTo]
  rw [List.map_map]
  rfl

theorem runTiers_call_ctxs (bld : BuildFun) (intr : Nat → Bool) (imgs : List PImage) :
    ∀ (n a : Nat) (uids : List String) (im : String × String) (c : List String),
      1 ≤ a →
      Ev.call im c ∈ (runTiers bld intr imgs (List.range' a n)
        (ctxsUpTo bld imgs (a - 1)) uids).1 →
      ∃ p, a ≤ p ∧ p < a + n ∧ im ∈ tierImages imgs p ∧ c = ctxsUpTo bld imgs (p - 1) := by
  intro n
  induction n with
  | zero =>
    intro a uids im c _ hmem
    rw [show List.range' a 0 = [] from rfl, runTiers] at hmem
    exact absurd hmem (List.not_mem_nil _)
  | succ n ih =>
    intro a uids im c ha hmem
    rw [List.range'_succ, runTiers] at hmem
    by_cases hia : intr a = true
    · rw [if_pos hia] at hmem
      rcases List.mem_cons.1 hmem with h1 | h2
      · exact Ev.noConfusion h1
      · rcases List.mem_cons.1 h2 with h3 | h4
        · exact Ev.noConfusion h3
        · exact absurd h4 (List.not_mem_nil _)
    · rw [if_neg hia] at hmem
      rcases List.mem_cons.1 hmem with h1 | h2
      · exact Ev.noConfusion h1
      · rcases List.mem_append.1 h2 with h3 | h4
        · obtain ⟨im2, him2, heq⟩ := List.mem_map.1 h3
          injection heq with he1 he2
          refine ⟨a, Nat.le_refl a, by omega, ?_, ?_⟩
          · rw [← he1]; exact him2
          · rw [← he2]
        · rcases List.mem_cons.1 h4 with h5 | h6
          · exact Ev.noConfusion h5
          · have he : a - 1 + 1 = a := by omega
            have hctx := ctxsUpTo_succ bld imgs (a - 1)
            rw [he] at hctx
            rw [← hctx] at h6
            obtain ⟨p, hp1, hp2, hp3, hp4⟩ := ih (a + 1) _ im c (by omega) h6
            exact ⟨p, by omega, by omega, hp3, hp4⟩

theorem buildAllPar_call_ctxs (bld : BuildFun) (intr : Nat → Bool) (imgs : List PImage)
    (im : String × String) (c : List String)
    (hmem : Ev.call im c ∈ (buildAllPar bld intr imgs).1) :
    ∃ p, 1 ≤ p ∧ p ≤ maxPriority imgs ∧ im ∈ tierImages imgs p ∧
      c = ctxsUpTo bld imgs (p - 1) := by
  unfold buildAllPar at hmem
  dsimp only at hmem
  cases hr : (runTiers bld intr imgs (List.range' 1 (maxPriority imgs)) [] []).2 with
  | ok res =>
    rw [hr] at hmem
    dsimp only at hmem
    rcases List.mem_append.1 hmem with h1 | h2
    · obtain ⟨p, hp1, hp2, hp3, hp4⟩ :=
        runTiers_call_ctxs bld intr imgs (maxPriority imgs) 1 [] im c (Nat.le_refl 1) h1
      exact ⟨p, hp1, by omega, hp3, hp4⟩
    · rcases List.mem_cons.1 h2 with h3 | h4
      · exact Ev.noConfusion h3
      · exact absurd h4 (List.not_mem_nil _)
  | error e =>
    cases e
    rw [hr] at hmem
    dsimp only at hmem
    obtain ⟨p, hp1, hp2, hp3, hp4⟩ :=
      runTiers_call_ctxs bld intr imgs (maxPriority imgs) 1 [] im c (Nat.le_refl 1) hmem
    exact ⟨p, hp1, by omega, hp3, hp4⟩

/-- The context list the i-th sequential build invocation receives: the
initial list extended by the outputs of all strictly earlier invocations. -/
def seqCtxAt (bld : BuildFun) : List (String × String) → List String → Nat → List String
  | _, ctx, 0 => ctx
  | [], ctx, _ + 1 => ctx
  | im :: rest, ctx, i + 1 => seqCtxAt bld rest (ctx ++ (bld im ctx).1) i

theorem runSeq_length (bld : BuildFun) :
    ∀ (ims : List (String × String)) (ctx uids : List String),
      (runSeq bld ims ctx uids).1.length = ims.length := by
  intro ims
  induction ims with
  | nil => intro ctx uids; rfl
  | cons im rest ih =>
    intro ctx uids
    show ((runSeq bld rest (ctx ++ (bld im ctx).1) _).1.length + 1) = rest.length + 1
    rw [ih]

theorem runSeq_get (bld : BuildFun) :
    ∀ (ims : List (String × String)) (ctx uids : List String) (i : Nat)
      (hi : i < ims.length),
      (runSeq bld ims ctx uids).1.get? i =
        some (Ev.call (ims.get ⟨i, hi⟩) (seqCtxAt bld ims ctx i)) := by
  intro ims
  induction ims with
  | nil => intro ctx uids i hi; exact absurd hi (by simp)
  | cons im rest ih =>
    intro ctx uids i hi
    cases i with
    | zero => rfl
    | succ i2 =>
      exact ih (ctx ++ (bld im ctx).1) _ i2 (Nat.lt_of_succ_lt_succ hi)

/-- C2 (amended): in parallel mode every build invocation receives exactly the
contexts accumulated from the strictly earlier tiers — sibling outputs within
a tier are never visible. In sequential mode every build invocation instead
receives the contexts of all previously completed build invocations in
resolved order, which includes same-tier siblings built earlier. -/
theorem C2_context_visibility :
    (∀ (bld : BuildFun) (intr : Nat → Bool) (imgs : List PImage) (im : String × String)
      (c : List String), Ev.call im c ∈ (buildAllPar bld intr imgs).1 →
      ∃ p, 1 ≤ p ∧ p ≤ maxPriority imgs ∧ im ∈ tierImages imgs p ∧
        c = ctxsUpTo bld imgs (p - 1)) ∧
    (∀ (bld : BuildFun) (imgs : List PImage) (i : Nat)
      (hi : i < (imgs.map (fun ic => ic.image)).length),
      (buildAllSeq bld imgs).1.get? i =
        some (Ev.call ((imgs.map (fun ic => ic.image)).get ⟨i, hi⟩)
          (seqCtxAt bld (imgs.map (fun ic => ic.image)) [] i))) := by
  constructor
  · exact buildAllPar_call_ctxs
  · intro bld imgs i hi
    unfold buildAllSeq
    dsimp only
    rw [List.get?_append (by rw [runSeq_length]; exact hi)]
    exact runSeq_get bld (imgs.map (fun ic => ic.image)) [] [] i hi

/-- The interrupt oracle of an undisturbed run. -/
def noIntr : Nat → Bool := fun _ => false

/-- Two same-tier sibling assignments, for the sequential counterexample. -/
def imgsSib : List PImage := [⟨1, ("a", "1")⟩, ⟨1, ("b", "1")⟩]

/-- C2 counterexample: in sequential mode, with two tier-1 siblings, the
second invocation receives the first sibling's freshly produced context
["ctx a"], although the accumulation of strictly earlier tiers (there are
none below tier 1) is empty — same-tier outputs are visible sequentially. -/
theorem C2_counterexample :
    (buildAllSeq bldEx imgsSib).1 =
      [Ev.call ("a", "1") [], Ev.call ("b", "1") ["ctx a"],
        Ev.writeFiles ["ctx a", "ctx b"] ["u", "u"]] ∧
    ctxsUpTo bldEx imgsSib 0 = [] ∧
    (["ctx a"] : List String) ≠ ([] : List String) :=
  ⟨by decide, by decide, by decide⟩

theorem C2_context_visibility_witness :
    (Ev.call ("c", "1") ["ctx a", "ctx b"] ∈ (buildAllPar bldEx noIntr imgsTiers).1 ∧
      (∃ p, 1 ≤ p ∧ p ≤ maxPriority imgsTiers ∧ ("c", "1") ∈ tierImages imgsTiers p ∧
        ["ctx a", "ctx b"] = ctxsUpTo bldEx imgsTiers (p - 1))) ∧
    ((0 : Nat) < (imgsTiers.map (fun ic => ic.image)).length ∧
      (buildAllSeq bldEx imgsTiers).1.get? 0 = some (Ev.call ("a", "1") [])) :=
  ⟨⟨by decide,
      C2_context_visibility.1 bldEx noIntr imgsTiers ("c", "1") ["ctx a", "ctx b"] (by decide)⟩,
    ⟨by decide, C2_context_visibility.2 bldEx imgsTiers 0 (by decide)⟩⟩

theorem C1_tiers_ascending_and_blocking_witness :
    ((∀ p ∈ List.range' 1 (maxPriority imgsTiers), noIntr p = false) ∧
      (buildAllPar bldEx noIntr imgsTiers).1 =
        [Ev.dispatch 1 [("a", "1"), ("b", "1")], Ev.call ("a", "1") [], Ev.call ("b", "1") [],
          Ev.tierDone 1] ++ Ev.dispatch 2 [("c", "1")] ::
          [Ev.call ("c", "1") ["ctx a", "ctx b"], Ev.tierDone 2,
            Ev.writeFiles ["ctx a", "ctx b", "ctx c"] ["u", "u", "u"]] ∧
      1 ≤ 1 ∧ 1 < 2) ∧
    dispatchPrios (buildAllPar bldEx noIntr imgsTiers).1 =
      List.range' 1 (maxPriority imgsTiers) ∧
    (Ev.tierDone 1 ∈
        [Ev.dispatch 1 [("a", "1"), ("b", "1")], Ev.call ("a", "1") [], Ev.call ("b", "1") [],
          Ev.tierDone 1] ∧
      ∀ im ∈ tierImages imgsTiers 1, ∃ c, Ev.call im c ∈
        [Ev.dispatch 1 [("a", "1"), ("b", "1")], Ev.call ("a", "1") [], Ev.call ("b", "1") [],
          Ev.tierDone 1]) :=
  ⟨⟨by decide, by decide, by decide, by decide⟩,
    (C1_tiers_ascending_and_blocking bldEx noIntr imgsTiers).2.1 (by decide),
    (C1_tiers_ascending_and_blocking bldEx noIntr imgsTiers).2.2
      [Ev.dispatch 1 [("a", "1"), ("b", "1")], Ev.call ("a", "1") [], Ev.call ("b", "1") [],
        Ev.tierDone 1]
      [Ev.call ("c", "1") ["ctx a", "ctx b"], Ev.tierDone 2,
        Ev.writeFiles ["ctx a", "ctx b", "ctx c"] ["u", "u", "u"]]
      2 [("c", "1")] (by decide) 1 (by decide) (by decide)⟩

/-! ## Manifest merging (main.py merge_manifests lines 141-156;
images.py create_manifest lines 156-170) -/

/-- Events of the merge phase: the external invocations it issues. -/
inductive MEv where
  | inspect (image sha : String)
  | create (cmd : List String)
  | rmi (image tag : String)
deriving DecidableEq

/-- Python image.split(":", maxsplit=1)[0] (images.py lines 149, 158). -/
def baseNoTag (image : String) : String :=
  match splitOnceL ':' image.data with
  | some (a, _) => String.mk a
  | none => image

/-- images.py create_manifest (lines 156-163): the docker command it runs. -/
def create_manifest_cmd (image : String) (digests : List String) : List String :=
  ["docker", "buildx", "imagetools", "create", "-t", image] ++
    digests.map (fun digest => baseNoTag image ++ "@" ++ digest)

/-- Python two-way unpack of s.split(sep) (main.py lines 146, 156): the split
on every separator occurrence must yield exactly two parts. -/
def splitTwo (sep : Char) (s : String) : Option (String × String) :=
  match splitOnB (fun c => c = sep) s.data with
  | [a, b] => some (String.mk a, String.mk b)
  | _ => none

/-- Python dict accumulation of main.py lines 147-149: append the digest to
the image's group, creating the group at the end on first sight. -/
def insertCtx (acc : List (String × List String)) (image sha : String) :
    List (String × List String) :=
  if acc.any (fun p => decide (p.1 = image)) then
    acc.map (fun p => if p.1 = image then (p.1, p.2 ++ [sha]) else p)
  else acc ++ [(image, [sha])]

/-- First loop of merge_manifests (main.py lines 145-150): parse each context
token, inspect its manifest, and group digests by image. -/
def mergePhase1 : List String → List (String × List String) →
    Option (List MEv × List (String × List String))
  | [], acc => some ([], acc)
  | context :: rest, acc =>
    match splitTwo ' ' context with
    | none => none
    | some (image, sha) =>
      (mergePhase1 rest (insertCtx acc image sha)).map
        (fun r => (MEv.inspect image sha :: r.1, r.2))

/-- Third loop of merge_manifests (main.py lines 155-156): remove each
recorded unique-id tag. -/
def mergePhase3 : List String → Option (List MEv)
  | [] => some []
  | uniq :: rest =>
    match splitTwo ':' uniq with
    | none => none
    | some (image, tag) =>
      (mergePhase3 rest).map (fun r => MEv.rmi image tag :: r)

/-- main.py merge_manifests (lines 141-156) over the two persisted lists: the
inspect loop, one manifest-create invocation per grouped image, then the
unique-id tag removals. -/
def merge_manifests (contexts uniq_ids : List String) : Option (List MEv) := do
  let r1 ← mergePhase1 contexts []
  let evs3 ← mergePhase3 uniq_ids
  some (r1.1 ++ r1.2.map (fun g => MEv.create (create_manifest_cmd g.1 g.2)) ++ evs3)

/-- The grouping fold underlying mergePhase1. -/
def foldInsert (acc : List (String × List String)) : List (String × String) →
    List (String × List String)
  | [] => acc
  | (image, sha) :: rest => foldInsert (insertCtx acc image sha) rest

/-- Every digest recorded for an image, in token order. -/
def digestsOf (image : String) (pairs : List (String × String)) : List String :=
  pairs.filterMap (fun p => if p.1 = image then some p.2 else none)

/-- Distinct elements in order of first occurrence. -/
def firstOccur : List String → List String
  | [] => []
  | x :: rest => x :: (firstOccur rest).filter (fun y => decide (y ≠ x))

/-- The group keys of an accumulator. -/
def keysOf (acc : List (String × List String)) : List String :=
  acc.map (fun g => g.1)

/-- The images of the token list not yet grouped, in first-occurrence order. -/
def newImages (acc : List (String × List String)) (pairs : List (String × String)) :
    List String :=
  firstOccur ((pairs.map (fun p => p.1)).filter (fun im => decide (im ∉ keysOf acc)))

/-- The command of a manifest-create event, if any. -/
def createOf : MEv → Option (List String)
  | MEv.create cmd => some cmd
  | _ => none

theorem firstOccur_subset : ∀ l : List String, firstOccur l ⊆ l := by
  intro l
  induction l with
  | nil => exact fun x hx => absurd hx (List.not_mem_nil x)
  | cons x rest ih =>
    intro y hy
    rw [firstOccur] at hy
    rcases List.mem_cons.1 hy with h1 | h2
    · exact h1 ▸ List.mem_cons_self x rest
    · exact List.mem_cons_of_mem x (ih (List.mem_of_mem_filter h2))

theorem firstOccur_filter (p : String → Bool) :
    ∀ l : List String, firstOccur (l.filter p) = (firstOccur l).filter p := by
  intro l
  induction l with
  | nil => rfl
  | cons x rest ih =>
    rw [List.filter_cons, firstOccur]
    by_cases hp : p x = true
    · rw [if_pos hp, firstOccur, ih, List.filter_cons, if_pos hp]
      rw [List.filter_filter, List.filter_filter]
      exact congrArg _ (List.filter_congr (fun a _ => Bool.and_comm _ _))
    · rw [if_neg hp, ih, List.filter_cons, if_neg hp, List.filter_filter]
      refine (List.filter_congr ?_).symm
      intro a _
      by_cases ha : a = x
      · subst ha
        rw [Bool.eq_false_iff.2 hp]
        simp
      · simp [ha]

theorem digestsOf_cons (image im sha : String) (rest : List (String × String)) :
    digestsOf image ((im, sha) :: rest) =
      if im = image then sha :: digestsOf image rest else digestsOf image rest := by
  by_cases h : im = image <;> simp [digestsOf, List.filterMap_cons, h]

theorem keysOf_append (acc acc2 : List (String × List String)) :
    keysOf (acc ++ acc2) = keysOf acc ++ keysOf acc2 := by
  unfold keysOf
  rw [List.map_append]

theorem foldInsert_spec :
    ∀ (pairs : List (String × String)) (acc : List (String × List String)),
      foldInsert acc pairs =
        acc.map (fun g => (g.1, g.2 ++ digestsOf g.1 pairs)) ++
        (newImages acc pairs).map (fun im => (im, digestsOf im pairs)) := by
  intro pairs
  induction pairs with
  | nil =>
    intro acc
    show acc = _
    rw [show newImages acc [] = [] from rfl]
    rw [List.map_nil, List.append_nil]
    rw [show (fun g : String × List String => (g.1, g.2 ++ digestsOf g.1 [])) =
      (fun g => (g.1, g.2)) from funext (fun g => by rw [show digestsOf g.1 [] = [] from rfl,
        List.append_nil])]
    rw [show (fun g : String × List String => (g.1, g.2)) = id from funext (fun g => rfl),
      List.map_id]
  | cons pr rest ih =>
    obtain ⟨im, sha⟩ := pr
    intro acc
    show foldInsert (insertCtx acc im sha) rest = _
    rw [ih]
    by_cases hk : acc.any (fun p => decide (p.1 = im)) = true
    · have hkey : im ∈ keysOf acc := by
        obtain ⟨p, hp, hpe⟩ := List.any_eq_true.1 hk
        exact List.mem_map.2 ⟨p, hp, of_decide_eq_true hpe⟩
      have hins : insertCtx acc im sha =
          acc.map (fun p => if p.1 = im then (p.1, p.2 ++ [sha]) else p) := by
        unfold insertCtx
        rw [if_pos hk]
      have hkeys : keysOf (insertCtx acc im sha) = keysOf acc := by
        rw [hins]
        unfold keysOf
        rw [List.map_map]
        refine List.map_congr_left ?_
        intro g _
        by_cases hg : g.1 = im <;> simp [Function.comp, hg]
      congr 1
      · rw [hins, List.map_map]
        refine List.map_congr_left ?_
        intro g _
        by_cases hg : g.1 = im
        · simp only [Function.comp, if_pos hg, digestsOf_cons, if_pos hg.symm]
          rw [List.append_assoc]
          rfl
        · simp only [Function.comp, if_neg hg, digestsOf_cons]
          rw [if_neg (fun hc : im = g.1 => hg hc.symm)]
      · have hnew : newImages (insertCtx acc im sha) rest = newImages acc rest := by
          unfold newImages
          rw [hkeys]
        have hnew2 : newImages acc ((im, sha) :: rest) = newImages acc rest := by
          unfold newImages
          rw [List.map_cons, List.filter_cons,
            if_neg (by simpa using hkey)]
        rw [hnew, hnew2]
        refine List.map_congr_left ?_
        intro im2 him2
        have him2b : im2 ∉ keysOf acc := by
          have := List.mem_filter.1 (firstOccur_subset _ him2)
          exact of_decide_eq_true this.2
        have hne : im ≠ im2 := fun hc => him2b (hc ▸ hkey)
        rw [digestsOf_cons, if_neg hne]
    · have hkey : im ∉ keysOf acc := by
        intro hmem
        obtain ⟨p, hp, hpe⟩ := List.mem_map.1 hmem
        exact absurd (List.any_eq_true.2 ⟨p, hp, decide_eq_true hpe⟩) hk
      have hins : insertCtx acc im sha = acc ++ [(im, [sha])] := by
        unfold insertCtx
        rw [if_neg hk]
      have hallne : ∀ g ∈ acc, g.1 ≠ im := by
        intro g hg hc
        exact hkey (List.mem_map.2 ⟨g, hg, hc⟩)
      rw [hins, List.map_append]
      have hmapacc : acc.map (fun g => (g.1, g.2 ++ digestsOf g.1 rest)) =
          acc.map (fun g => (g.1, g.2 ++ digestsOf g.1 ((im, sha) :: rest))) := by
        refine List.map_congr_left ?_
        intro g hg
        rw [digestsOf_cons, if_neg (fun hc => hallne g hg hc.symm)]
      have hnew2 : newImages acc ((im, sha) :: rest) =
          im :: (newImages acc rest).filter (fun y => decide (y ≠ im)) := by
        unfold newImages
        rw [List.map_cons, List.filter_cons, if_pos (by simpa using hkey), firstOccur]
      have hnew1 : newImages (acc ++ [(im, [sha])]) rest =
          (newImages acc rest).filter (fun y => decide (y ≠ im)) := by
        unfold newImages
        rw [keysOf_append, show keysOf [(im, [sha])] = [im] from rfl]
        rw [show (fun x => decide (x ∉ keysOf acc ++ [im])) =
          (fun x => decide (x ≠ im) && decide (x ∉ keysOf acc)) from funext (fun x => by
            by_cases h1 : x ∈ keysOf acc <;> by_cases h2 : x = im <;> simp [h1, h2])]
        rw [← List.filter_filter, firstOccur_filter]
      have hmapnew : ((newImages acc rest).filter (fun y => decide (y ≠ im))).map
          (fun im2 => (im2, digestsOf im2 rest)) =
          ((newImages acc rest).filter (fun y => decide (y ≠ im))).map
          (fun im2 => (im2, digestsOf im2 ((im, sha) :: rest))) := by
        refine List.map_congr_left ?_
        intro im2 him2
        have hne : im2 ≠ im := of_decide_eq_true (List.mem_filter.1 him2).2
        rw [digestsOf_cons]
        rw [if_neg (fun hc : im = im2 => hne hc.symm)]
      rw [hmapacc, hnew1, hnew2, hmapnew]
      simp only [List.map_cons, List.map_nil]
      rw [show digestsOf im ((im, sha) :: rest) = sha :: digestsOf im rest from by
        rw [digestsOf_cons, if_pos rfl]]
      rw [List.append_assoc]
      rfl

theorem optionBind_some {α β : Type} (a : α) (f : α → Option β) :
    (some a >>= f) = f a := rfl

theorem mergePhase1_spec :
    ∀ (contexts : List String) (pairs : List (String × String))
      (acc : List (String × List String)),
      contexts.map (splitTwo ' ') = pairs.map some →
      mergePhase1 contexts acc =
        some (pairs.map (fun p => MEv.inspect p.1 p.2), foldInsert acc pairs) := by
  intro contexts
  induction contexts with
  | nil =>
    intro pairs acc h
    cases pairs with
    | nil => rfl
    | cons p ps => simp at h
  | cons c cs ih =>
    intro pairs acc h
    cases pairs with
    | nil => simp at h
    | cons p ps =>
      obtain ⟨im, sha⟩ := p
      rw [List.map_cons, List.map_cons] at h
      injection h with h1 h2
      rw [mergePhase1, h1]
      dsimp only
      rw [ih ps (insertCtx acc im sha) h2]
      rfl

theorem mergePhase3_spec :
    ∀ uniq_ids : List String, (∀ u ∈ uniq_ids, (splitTwo ':' u).isSome = true) →
      ∃ evs3, mergePhase3 uniq_ids = some evs3 ∧ ∀ e ∈ evs3, createOf e = none := by
  intro uniq_ids
  induction uniq_ids with
  | nil => intro _; exact ⟨[], rfl, fun e he => absurd he (List.not_mem_nil e)⟩
  | cons u us ih =>
    intro h
    have hu := h u (List.mem_cons_self u us)
    cases hs : splitTwo ':' u with
    | none => rw [hs] at hu; simp [Option.isSome] at hu
    | some pr =>
      obtain ⟨a, b⟩ := pr
      obtain ⟨evs3, he3, hall⟩ := ih (fun v hv => h v (List.mem_cons_of_mem u hv))
      refine ⟨MEv.rmi a b :: evs3, ?_, ?_⟩
      · rw [mergePhase3, hs, he3]
        rfl
      · intro e he
        rcases List.mem_cons.1 he with h1 | h2
        · rw [h1]; rfl
        · exact hall e h2

/-- C9: when every persisted context token splits as "image digest" (and every
unique-id record splits as "image:tag"), the merge phase groups the tokens by
their image-name part and issues exactly one manifest-create invocation per
distinct image, in first-appearance order, each listing every digest recorded
for that image in token order; so two contexts "acme/app sha256:aaa" and
"acme/app sha256:bbb" yield exactly one create invocation listing both. -/
theorem C9_one_create_per_group (contexts uniq_ids : List String)
    (pairs : List (String × String))
    (hparse : contexts.map (splitTwo ' ') = pairs.map some)
    (huids : ∀ u ∈ uniq_ids, (splitTwo ':' u).isSome = true) :
    ∃ evs, merge_manifests contexts uniq_ids = some evs ∧
      evs.filterMap createOf =
        (firstOccur (pairs.map (fun p => p.1))).map
          (fun im => create_manifest_cmd im (digestsOf im pairs)) := by
  obtain ⟨evs3, he3, hall⟩ := mergePhase3_spec uniq_ids huids
  refine ⟨pairs.map (fun p => MEv.inspect p.1 p.2) ++
      (foldInsert [] pairs).map (fun g => MEv.create (create_manifest_cmd g.1 g.2)) ++ evs3,
    ?_, ?_⟩
  · unfold merge_manifests
    rw [mergePhase1_spec contexts pairs [] hparse, optionBind_some, he3, optionBind_some]
  · rw [List.filterMap_append, List.filterMap_append]
    rw [List.filterMap_eq_nil.2 (fun e he => hall e he)]
    rw [show (pairs.map (fun p => MEv.inspect p.1 p.2)).filterMap createOf = [] from
      List.filterMap_eq_nil.2 (fun e he => by
        obtain ⟨p, _, hp⟩ := List.mem_map.1 he
        rw [← hp]
        rfl)]
    rw [List.nil_append, List.append_nil]
    rw [List.filterMap_map]
    rw [show (createOf ∘ fun g : String × List String =>
        MEv.create (create_manifest_cmd g.1 g.2)) =
      (fun g => some (create_manifest_cmd g.1 g.2)) from funext (fun g => rfl)]
    have hfm : ∀ l : List (String × List String),
        l.filterMap (fun g => some (create_manifest_cmd g.1 g.2)) =
          l.map (fun g => create_manifest_cmd g.1 g.2) := by
      intro l
      induction l with
      | nil => rfl
      | cons x xs ih =>
        show create_manifest_cmd x.1 x.2 :: xs.filterMap _ =
          create_manifest_cmd x.1 x.2 :: xs.map _
        rw [ih]
    rw [hfm, foldInsert_spec pairs []]
    rw [show ([] : List (String × List String)).map
      (fun g => (g.1, g.2 ++ digestsOf g.1 pairs)) = [] from rfl, List.nil_append]
    rw [show newImages [] pairs = firstOccur (pairs.map (fun p => p.1)) from by
      unfold newImages
      rw [List.filter_eq_self.2 (fun a _ => by simp [keysOf])]]
    rw [List.map_map]
    rfl

theorem C9_one_create_per_group_witness :
    (["acme/app sha256:aaa", "acme/app sha256:bbb"].map (splitTwo ' ') =
      [("acme/app", "sha256:aaa"), ("acme/app", "sha256:bbb")].map some ∧
      (∀ u ∈ ([] : List String), (splitTwo ':' u).isSome = true)) ∧
    (∃ evs, merge_manifests ["acme/app sha256:aaa", "acme/app sha256:bbb"] [] = some evs ∧
      evs.filterMap createOf =
        (firstOccur ([("acme/app", "sha256:aaa"), ("acme/app", "sha256:bbb")].map
          (fun p => p.1))).map
          (fun im => create_manifest_cmd im
            (digestsOf im [("acme/app", "sha256:aaa"), ("acme/app", "sha256:bbb")]))) :=
  ⟨⟨by decide, by decide⟩,
    C9_one_create_per_group ["acme/app sha256:aaa", "acme/app sha256:bbb"] []
      [("acme/app", "sha256:aaa"), ("acme/app", "sha256:bbb")] (by decide) (by decide)⟩

/-! ## Manifest information persistence (main.py lines 52-66) -/

/-- Python "\n".join. -/
def joinNl : List String → String
  | [] => ""
  | [a] => a
  | a :: b :: rest => a ++ "\n" ++ joinNl (b :: rest)

/-- main.py write_manifest_information (lines 52-57): the two file contents,
each the newline-join of its list plus a trailing newline. -/
def write_manifest_information (contexts uniq_ids : List String) : String × String :=
  (joinNl contexts ++ "\n", joinNl uniq_ids ++ "\n")

/-- main.py read_manifest_information (lines 60-66): split each file's text
into lines (Python str.splitlines) and drop empty lines. -/
def read_manifest_information (files : String × String) : List String × List String :=
  ((pySplitlinesL files.1.data).filter (fun l => decide (l ≠ [])) |>.map
      (fun l => String.mk l),
    (pySplitlinesL files.2.data).filter (fun l => decide (l ≠ [])) |>.map
      (fun l => String.mk l))

theorem strmk_data : ∀ s : String, String.mk s.data = s
  | ⟨_⟩ => rfl

theorem normCRLF_of_no_cr : ∀ l : List Char, (∀ c ∈ l, c ≠ '\r') → normCRLF l = l := by
  intro l
  induction l with
  | nil => intro _; rfl
  | cons c rest ih =>
    intro h
    have hc : c ≠ '\r' := h c (List.mem_cons_self _ _)
    cases rest with
    | nil => rfl
    | cons d rest2 =>
      show (if c = '\r' ∧ d = '\n' then '\n' :: normCRLF rest2
        else c :: normCRLF (d :: rest2)) = c :: d :: rest2
      rw [if_neg (fun hcontra => hc hcontra.1)]
      rw [ih (fun x hx => h x (List.mem_cons_of_mem c hx))]

theorem splitOnB_append_sep (p : Char → Bool) (sep : Char) (hsep : p sep = true) :
    ∀ (l₁ rest : List Char), (∀ c ∈ l₁, p c = false) →
      splitOnB p (l₁ ++ sep :: rest) = l₁ :: splitOnB p rest := by
  intro l₁
  induction l₁ with
  | nil =>
    intro rest _
    rw [List.nil_append, splitOnB, if_pos hsep]
  | cons x l₁ ih =>
    intro rest h
    have hx : p x = false := h x (List.mem_cons_self _ _)
    rw [List.cons_append, splitOnB, if_neg (by simp [hx])]
    rw [ih rest (fun c hc => h c (List.mem_cons_of_mem x hc))]

theorem joinNl_data : ∀ (s : String) (cs : List String),
    (joinNl (s :: cs) ++ "\n").data =
      ((s :: cs).map (fun t => t.data ++ ['\n'])).flatten := by
  intro s cs
  induction cs generalizing s with
  | nil =>
    show (s ++ "\n").data = (s.data ++ ['\n']) ++ []
    rw [String.data_append, List.append_nil]
  | cons b rest ih =>
    have ih2 : (joinNl (b :: rest)).data ++ ['\n'] =
        ((b :: rest).map (fun t => t.data ++ ['\n'])).flatten := by
      have h2 := ih b
      rw [String.data_append] at h2
      exact h2
    show (s ++ "\n" ++ joinNl (b :: rest) ++ "\n").data = _
    rw [String.data_append, String.data_append, String.data_append]
    rw [show ("\n" : String).data = ['\n'] from rfl]
    simp only [List.append_assoc]
    rw [ih2]
    simp only [List.map_cons, List.flatten_cons, List.append_assoc]

theorem splitOnB_flatten :
    ∀ cs : List String, (∀ s ∈ cs, ∀ c ∈ s.data, lineBreak c = false) →
      splitOnB lineBreak ((cs.map (fun s => s.data ++ ['\n'])).flatten) =
        cs.map (fun s => s.data) ++ [[]] := by
  intro cs
  induction cs with
  | nil => intro _; rfl
  | cons s cs ih =>
    intro h
    rw [show ((s :: cs).map (fun t => t.data ++ ['\n'])).flatten =
      s.data ++ ('\n' :: (cs.map (fun t => t.data ++ ['\n'])).flatten) from by
        rw [show ((s :: cs).map (fun t => t.data ++ ['\n'])).flatten =
          (s.data ++ ['\n']) ++ (cs.map (fun t => t.data ++ ['\n'])).flatten from rfl]
        rw [List.append_assoc]
        rfl]
    rw [splitOnB_append_sep lineBreak '\n' (by decide) s.data _
      (h s (List.mem_cons_self _ _))]
    rw [ih (fun t ht => h t (List.mem_cons_of_mem s ht))]
    rfl

theorem roundtrip_one (l : List String)
    (h : ∀ s ∈ l, s.data ≠ [] ∧ ∀ c ∈ s.data, lineBreak c = false) :
    ((pySplitlinesL (joinNl l ++ "\n").data).filter (fun x => decide (x ≠ []))).map
      (fun x => String.mk x) = l := by
  cases l with
  | nil => rfl
  | cons s ls =>
    have hbf : ∀ t ∈ s :: ls, ∀ c ∈ t.data, lineBreak c = false :=
      fun t ht c hc => (h t ht).2 c hc
    have hnocr : ∀ c ∈ (joinNl (s :: ls) ++ "\n").data, c ≠ '\r' := by
      rw [joinNl_data]
      intro c hc hcr
      obtain ⟨piece, hpmem, hcp⟩ := List.mem_flatten.1 hc
      obtain ⟨t, htmem, hteq⟩ := List.mem_map.1 hpmem
      rw [← hteq] at hcp
      rcases List.mem_append.1 hcp with h1 | h2
      · have := hbf t htmem c h1
        rw [hcr] at this
        simp [lineBreak] at this
      · rw [List.mem_singleton.1 h2] at hcr
        exact absurd hcr (by decide)
    unfold pySplitlinesL
    rw [normCRLF_of_no_cr _ hnocr, joinNl_data, splitOnB_flatten _ hbf]
    dsimp only
    rw [List.getLast?_concat]
    dsimp only
    rw [List.dropLast_concat]
    rw [List.filter_eq_self.2 (fun x hx => by
      obtain ⟨t, htm, hte⟩ := List.mem_map.1 hx
      rw [← hte]
      exact decide_eq_true ((h t htm).1))]
    rw [List.map_map]
    rw [show ((fun x => String.mk x) ∘ fun s : String => s.data) = id from
      funext (fun t => strmk_data t)]
    rw [List.map_id]

/-- C10 (amended): writing the manifest information and reading it back is the
identity on every pair of lists of non-empty strings that contain no character
Python's str.splitlines treats as a line boundary (LF, CR, VT, FF, FS, GS, RS,
NEL, LINE/PARAGRAPH SEPARATOR), including the empty list; empty strings are
silently dropped on read. -/
theorem C10_write_read_roundtrip (contexts uniq_ids : List String)
    (hc : ∀ s ∈ contexts, s.data ≠ [] ∧ ∀ c ∈ s.data, lineBreak c = false)
    (hu : ∀ s ∈ uniq_ids, s.data ≠ [] ∧ ∀ c ∈ s.data, lineBreak c = false) :
    read_manifest_information (write_manifest_information contexts uniq_ids) =
      (contexts, uniq_ids) := by
  unfold write_manifest_information read_manifest_information
  dsimp only
  rw [roundtrip_one contexts hc, roundtrip_one uniq_ids hu]

theorem C10_write_read_roundtrip_witness :
    ((∀ s ∈ (["acme/app sha256:aaa", "acme/app sha256:bbb"] : List String),
        s.data ≠ [] ∧ ∀ c ∈ s.data, lineBreak c = false) ∧
      (∀ s ∈ ([] : List String), s.data ≠ [] ∧ ∀ c ∈ s.data, lineBreak c = false)) ∧
    read_manifest_information
        (write_manifest_information ["acme/app sha256:aaa", "acme/app sha256:bbb"] []) =
      (["acme/app sha256:aaa", "acme/app sha256:bbb"], []) :=
  ⟨⟨by decide, by decide⟩,
    C10_write_read_roundtrip ["acme/app sha256:aaa", "acme/app sha256:bbb"] []
      (by decide) (by decide)⟩

/-- C10 counterexample: the string "a\x0cb" is non-empty and contains no
newline character (neither LF nor CR), yet Python's splitlines splits at the
form feed, so the write/read round trip returns ["a", "b"], not the original
list. -/
theorem C10_counterexample :
    read_manifest_information (write_manifest_information ["a\x0cb"] []) =
      (["a", "b"], []) ∧
    (∀ c ∈ ("a\x0cb" : String).data, c ≠ '\n' ∧ c ≠ '\r') ∧
    ("a\x0cb" : String) ≠ "" ∧
    ((["a", "b"] : List String), ([] : List String)) ≠
      ((["a\x0cb"] : List String), ([] : List String)) :=
  ⟨by decide, by decide, by decide, by decide⟩
